import Mathlib

/- A shallow embedding of `DataManager.py` (portfolio-backtester), together
with theorems checking the repository's natural-language specification
against it.

Modelling choices:
* Python strings are lists of characters (`Str`); all data considered here
  is ASCII.
* The on-disk store is an association list from filename to file content
  (`Store`); file content is a raw character list, lines are separated by
  a single newline character exactly as `file.write(... + '\n')` produces.
* `datetime` dates are year/month/day triples; `datetime` comparison is
  lexicographic on those fields and `timedelta(1)` addition is the
  calendar successor, which agrees with CPython on its whole supported
  range (years 1..9999).
* `float` values (prices, ratios) are parsed into exact decimals
  (`PyFloat`).  The program only parses, stores and returns these values -
  it never computes with them - so IEEE rounding is irrelevant to every
  statement below.
* Fallible Python code is modelled in the `Except PyErr` monad, with one
  constructor per exception class that the source can raise. -/

/-- Python strings, modelled as lists of characters. -/
abbrev Str := List Char

/-- View a Lean string literal as the character-list model. -/
def str (s : String) : Str := s.data

/-- The ASCII part of the whitespace set stripped by Python's `str.strip`. -/
def isPySpace (c : Char) : Bool :=
  c = ' ' || c = '\t' || c = '\n' || c = '\r' || c = '\x0b' || c = '\x0c'

/-- Python `s.strip()`: drop leading and trailing whitespace. -/
def pyStrip (s : Str) : Str :=
  ((s.dropWhile isPySpace).reverse.dropWhile isPySpace).reverse

/-- Python `s.upper()` (ASCII). -/
def pyUpper (s : Str) : Str := s.map Char.toUpper

/-- Helper for `splitChar`: `pending` holds the current chunk, reversed. -/
def splitCharAux (sep : Char) : List Char → List Char → List Str
  | [], pending => [pending.reverse]
  | c :: cs, pending =>
      if c = sep then pending.reverse :: splitCharAux sep cs []
      else splitCharAux sep cs (c :: pending)

/-- Python `s.split(sep)` for a single-character separator: splits at every
occurrence, keeping empty chunks (`"".split(sep) == ['']`). -/
def splitChar (sep : Char) (s : Str) : List Str := splitCharAux sep s []

/-- Python `sep.join(parts)` for a single-character separator. -/
def joinSep (sep : Char) : List Str → Str
  | [] => []
  | [x] => x
  | x :: y :: rest => x ++ sep :: joinSep sep (y :: rest)

/-- Helper for `pyLines`: `pending` holds the current line, reversed. -/
def pyLinesAux : List Char → List Char → List Str
  | [], pending => if pending = [] then [] else [pending.reverse]
  | c :: cs, pending =>
      if c = '\n' then pending.reverse :: pyLinesAux cs []
      else pyLinesAux cs (c :: pending)

/-- Iterating a Python text file yields its newline-separated lines; a
final chunk after the last newline appears only when non-empty (the
newline itself, kept by Python, is dropped here: every caller in the
source immediately strips it away). -/
def pyLines (content : Str) : List Str := pyLinesAux content []

/-- Python string comparison `a < b`: lexicographic on code points. -/
def strLtB : Str → Str → Bool
  | [], [] => false
  | [], _ :: _ => true
  | _ :: _, [] => false
  | a :: as_, b :: bs => if a < b then true else if a = b then strLtB as_ bs else false

/-- The exception classes the embedded code can raise. -/
inductive PyErr where
  | nameError
  | valueError
  | indexError
  | stopIteration
deriving DecidableEq, Repr

/-- Python list indexing `xs[i]` for a non-negative index: `IndexError`
when out of range. -/
def listGetE {α : Type} (xs : List α) (i : Nat) : Except PyErr α :=
  match xs.get? i with
  | some x => .ok x
  | none => .error .indexError

/-- The character `'0' + n` for a digit value `n < 10`. -/
def digitChar (n : Nat) : Char := Char.ofNat (48 + n)

/-- Fuel-driven decimal printing helper (most significant digit first). -/
def natDigitsAux : Nat → Nat → List Char → List Char
  | 0, _, acc => acc
  | fuel + 1, n, acc =>
      if n < 10 then digitChar n :: acc
      else natDigitsAux fuel (n / 10) (digitChar (n % 10) :: acc)

/-- Decimal digits of a natural number, no padding. -/
def natDigits (n : Nat) : Str := natDigitsAux (n + 1) n []

/-- Zero-pad to two digits, as `strftime` does for `%m` and `%d`. -/
def pad2 (n : Nat) : Str := if n < 10 then ['0', digitChar n] else natDigits n

/-- Numeric value of a digit character. -/
def digitVal (c : Char) : Nat := c.toNat - 48

/-- All characters are ASCII digits. -/
def allDigits (s : Str) : Bool := s.all Char.isDigit

/-- Value of a digit string, most significant digit first. -/
def digitsVal (s : Str) : Nat := s.foldl (fun a c => a * 10 + digitVal c) 0

/-- Gregorian leap year, as `datetime` uses. -/
def isLeap (y : Nat) : Bool := (y % 4 = 0 && ¬ y % 100 = 0) || y % 400 = 0

/-- Days in a month of the Gregorian calendar. -/
def daysInMonth (y m : Nat) : Nat :=
  if m = 2 then (if isLeap y then 29 else 28)
  else if m = 4 || m = 6 || m = 9 || m = 11 then 30
  else 31

/-- A calendar date, the payload of a Python `datetime` at day granularity. -/
structure Date where
  year : Nat
  month : Nat
  day : Nat
deriving DecidableEq, Repr

/-- The dates representable by Python `datetime` (years 1..9999). -/
def ValidDate (d : Date) : Prop :=
  1 ≤ d.year ∧ d.year ≤ 9999 ∧ 1 ≤ d.month ∧ d.month ≤ 12 ∧
    1 ≤ d.day ∧ d.day ≤ daysInMonth d.year d.month

instance (d : Date) : Decidable (ValidDate d) := by
  unfold ValidDate; infer_instance

/-- `datetime` comparison: lexicographic on (year, month, day). -/
def dateLtB (a b : Date) : Bool :=
  a.year < b.year ||
    (a.year = b.year && (a.month < b.month ||
      (a.month = b.month && a.day < b.day)))

/-- `datetime + timedelta(1)` on valid dates: the calendar successor. -/
def nextDay (d : Date) : Date :=
  if d.day < daysInMonth d.year d.month then ⟨d.year, d.month, d.day + 1⟩
  else if d.month < 12 then ⟨d.year, d.month + 1, 1⟩
  else ⟨d.year + 1, 1, 1⟩

/-- A packing of dates into `Nat` that is strictly monotone along
`nextDay` on valid dates; used only to size loop fuel. -/
def packedDate (d : Date) : Nat := (d.year * 13 + d.month) * 32 + d.day

/-- `datetime.strptime(s, '%Y-%m-%d')`: split on `-`, read a 1-4 digit
year and 1-2 digit month and day, then validate the calendar ranges
exactly as the `datetime` constructor does. -/
def parseDate (s : Str) : Except PyErr Date :=
  match splitChar '-' s with
  | [ys, ms, ds] =>
      if allDigits ys && allDigits ms && allDigits ds &&
          decide (1 ≤ ys.length) && decide (ys.length ≤ 4) &&
          decide (1 ≤ ms.length) && decide (ms.length ≤ 2) &&
          decide (1 ≤ ds.length) && decide (ds.length ≤ 2) then
        let y := digitsVal ys
        let m := digitsVal ms
        let d := digitsVal ds
        if decide (1 ≤ y) && decide (1 ≤ m) && decide (m ≤ 12) &&
            decide (1 ≤ d) && decide (d ≤ daysInMonth y m) then
          .ok ⟨y, m, d⟩
        else .error .valueError
      else .error .valueError
  | _ => .error .valueError

/-- `strftime('%Y-%m-%d')`: unpadded year (as on glibc; all dates in this
development have four-digit years anyway), two-digit month and day. -/
def formatDate (d : Date) : Str :=
  natDigits d.year ++ '-' :: (pad2 d.month ++ '-' :: pad2 d.day)

/-- The result of Python `float(s)` on a decimal literal, kept exactly as
the decimal `mant / 10 ^ exp10`.  The program only parses, stores and
returns these values - it never computes with them - so nothing below
depends on rounding to an IEEE double, and an exact decimal is a faithful
value domain. -/
structure PyFloat where
  mant : Int
  exp10 : Nat
deriving DecidableEq, Repr

/-- The rational value of a parsed float. -/
def PyFloat.toRat (x : PyFloat) : ℚ := (x.mant : ℚ) / (10 : ℚ) ^ x.exp10

/-- Python `float(s)` on the decimal literals this program stores:
optional sign, digits with an optional fractional part, surrounding
whitespace allowed. -/
def pyFloat (s : Str) : Except PyErr PyFloat :=
  let t := pyStrip s
  let p : Int × Str :=
    match t with
    | '-' :: rest => (-1, rest)
    | '+' :: rest => (1, rest)
    | _ => (1, t)
  match splitChar '.' p.2 with
  | [a] =>
      if allDigits a && decide (1 ≤ a.length) then
        .ok ⟨p.1 * digitsVal a, 0⟩
      else .error .valueError
  | [a, b] =>
      if allDigits a && allDigits b && decide (1 ≤ a.length + b.length) then
        .ok ⟨p.1 * (digitsVal a * 10 ^ b.length + digitsVal b), b.length⟩
      else .error .valueError
  | _ => .error .valueError

deriving instance DecidableEq for Except

/-- A row of stock data as the source handles it: a list of text fields
(`[date, open, high, low, close, volume]` when well formed). -/
abbrev Row := List Str

/-- The on-disk store: filename to file content.  `DataManager` is the
only writer, so one binding per filename arises in practice; lookup takes
the first binding, like the filesystem would. -/
abbrev Store := List (Str × Str)

/-- Content of a file, `none` when the file does not exist. -/
def lookupStore : Store → Str → Option Str
  | [], _ => none
  | (k, v) :: rest, f => if k = f then some v else lookupStore rest f

/-- `os.path.isfile`. -/
def hasFile (store : Store) (f : Str) : Bool :=
  (lookupStore store f).isSome

/-- `os.remove`. -/
def removeFile (store : Store) (f : Str) : Store :=
  store.filter (fun p => ¬ p.1 = f)

/-- `open(f, 'w')` followed by writing `content`: truncate or create. -/
def writeFileW (store : Store) (f : Str) (content : Str) : Store :=
  if store.any (fun p => p.1 = f) then
    store.map (fun p => if p.1 = f then (p.1, content) else p)
  else store ++ [(f, content)]

/-- `open(f, 'a')` followed by writing `content`: extend or create. -/
def appendFileA (store : Store) (f : Str) (content : Str) : Store :=
  if store.any (fun p => p.1 = f) then
    store.map (fun p => if p.1 = f then (p.1, p.2 ++ content) else p)
  else store ++ [(f, content)]

/-- `DataManager._filename_for`: `data_location + ticker.upper() + ".csv"`. -/
def filenameFor (loc t : Str) : Str := loc ++ pyUpper t ++ str ".csv"

/-- `DataManager._write_data_to_csv_file`: write `','.join(line) + '\n'`
for every row, in the given mode. -/
def serializeRows (rows : List Row) : Str :=
  (rows.map (fun r => joinSep ',' r ++ ['\n'])).flatten

/-- `DataManager._write_data_to_csv_file` with mode `'a'` or `'w'`. -/
def writeDataToCsvFile (store : Store) (filename : Str) (data : List Row)
    (modeAppend : Bool) : Store :=
  if modeAppend then appendFileA store filename (serializeRows data)
  else writeFileW store filename (serializeRows data)

/-- `DataManager._readlines_for`: the stripped lines of the ticker's file,
`[]` when the file does not exist. -/
def readlinesFor (loc : Str) (store : Store) (t : Str) : List Str :=
  match lookupStore store (filenameFor loc t) with
  | none => []
  | some c => (pyLines c).map pyStrip

/-- `DataManager._read_csv_file_rows_for`: split every line on commas and
strip each field. -/
def readCsvRowsFor (loc : Str) (store : Store) (t : Str) : List Row :=
  (readlinesFor loc store t).map (fun l => (splitChar ',' l).map pyStrip)

/-- One line's contribution to the column arrays: `values[i].strip()` for
`i` in `0..5`, `IndexError` when a line has fewer than six fields. -/
def rowToSix (values : List Str) : Except PyErr (List Str) := do
  let a ← listGetE values 0
  let b ← listGetE values 1
  let c ← listGetE values 2
  let d ← listGetE values 3
  let e ← listGetE values 4
  let f ← listGetE values 5
  .ok [pyStrip a, pyStrip b, pyStrip c, pyStrip d, pyStrip e, pyStrip f]

/-- Append one value to the end of each column array. -/
def appendEach : List (List Str) → List Str → List (List Str)
  | c :: cs, v :: vs => (c ++ [v]) :: appendEach cs vs
  | cs, [] => cs
  | [], _ => []

/-- The line loop of `DataManager._read_csv_file_columns_for`. -/
def colsAux : List Str → List (List Str) → Except PyErr (List (List Str))
  | [], acc => .ok acc
  | l :: ls, acc => do
      let six ← rowToSix (splitChar ',' l)
      colsAux ls (appendEach acc six)

/-- `DataManager._read_csv_file_columns_for`: six column arrays. -/
def readCsvColumnsFor (loc : Str) (store : Store) (t : Str) :
    Except PyErr (List (List Str)) :=
  colsAux (readlinesFor loc store t) [[], [], [], [], [], []]

/-- `DataManager.read_stock_data`: dispatch on the format string. -/
def readStockData (loc : Str) (store : Store) (t : Str) (format : Str) :
    Except PyErr (List Row) :=
  if format = str "column" then readCsvColumnsFor loc store t
  else if format = str "row" then .ok (readCsvRowsFor loc store t)
  else .ok []

/-- `row[0]`: `IndexError` on an empty row. -/
def rowDateE (r : Row) : Except PyErr Str := listGetE r 0

/-- `next(i for i, _ in enumerate(data) if _[0] == target)`: index of the
first row whose date field equals `target`; `StopIteration` when none,
`IndexError` when a row scanned on the way is empty. -/
def findDateIdx (target : Str) : List Row → Nat → Except PyErr Nat
  | [], _ => .error .stopIteration
  | r :: rs, i => do
      let f ← rowDateE r
      if f = target then .ok i else findDateIdx target rs (i + 1)

/-- `data[-1][0]`: `IndexError` when `data` is empty or its last row is. -/
def lastRowDateE (data : List Row) : Except PyErr Str :=
  match data.getLast? with
  | some r => rowDateE r
  | none => .error .indexError

/-- `data[0][0]`: `IndexError` when `data` is empty or its first row is. -/
def firstRowDateE (data : List Row) : Except PyErr Str :=
  match data.head? with
  | some r => rowDateE r
  | none => .error .indexError

/-- The merge step of `DataManager.write_stock_data` with `append=True`:
the sub-sequence of `data` that will be appended after `existing`.
Comparisons are Python string comparisons of the raw date fields, and the
two halves of the `and` short-circuit exactly as in the source. -/
def mergeAppend (existing data : List Row) : Except PyErr (List Row) :=
  match existing.getLast? with
  | none => .ok data
  | some lastRow => do
      let lastDate ← rowDateE lastRow
      let dataLast ← lastRowDateE data
      if strLtB lastDate dataLast then do
        let dataFirst ← firstRowDateE data
        if strLtB dataFirst lastDate then do
          let i ← findDateIdx lastDate data 0
          .ok (data.drop (i + 1))
        else .ok []
      else .ok []

/-- `DataManager.write_stock_data`. -/
def writeStockData (loc : Str) (store : Store) (t : Str) (data : List Row)
    (append : Bool) : Except PyErr Store :=
  if append then do
    let existing ← readStockData loc store t (str "row")
    let dataToWrite ← mergeAppend existing data
    .ok (writeDataToCsvFile store (filenameFor loc t) dataToWrite true)
  else
    let store1 :=
      if hasFile store (filenameFor loc t) then
        removeFile store (filenameFor loc t)
      else store
    .ok (writeDataToCsvFile store1 (filenameFor loc t) data false)

/-- A price lookup table: a Python dict keyed by formatted date strings,
in insertion order. -/
abbrev PriceLut := List (Str × PyFloat)

/-- Python dict assignment `d[k] = v`: update in place when the key is
present, append otherwise. -/
def dictInsert (d : PriceLut) (k : Str) (v : PyFloat) : PriceLut :=
  if d.any (fun p => p.1 = k) then
    d.map (fun p => if p.1 = k then (p.1, v) else p)
  else d ++ [(k, v)]

/-- Python dict lookup `d[k]`. -/
def lutLookup : PriceLut → Str → Option PyFloat
  | [], _ => none
  | (k, v) :: rest, key => if k = key then some v else lutLookup rest key

/-- The `while curr_date < next_date` loop of `build_price_lut`: record
the current row's close at the running date, then advance by one day
(`fill`) or jump to the next row's date (not `fill`).  `currFields` is
the current line split on commas; its close field is fetched and parsed
inside the body, as in the source.  The fuel only bounds the iteration
count; every call below passes fuel that is never exhausted on the dates
`strptime` can produce. -/
def fillSteps : Nat → Date → Date → List Str → Bool → PriceLut →
    Except PyErr PriceLut
  | 0, _, _, _, _, acc => .ok acc
  | fuel + 1, curr, next, currFields, fill, acc =>
      if dateLtB curr next then do
        let closeText ← listGetE currFields 4
        let v ← pyFloat closeText
        let acc1 := dictInsert acc (formatDate curr) v
        fillSteps fuel (if fill then nextDay curr else next) next currFields
          fill acc1
      else .ok acc

/-- The `for i in range(0, len(file_content) - 1)` loop of
`build_price_lut`, consuming consecutive line pairs, followed by the
final-line assignment.  When one line remains it is the `next` line of
the last processed pair; the source reuses the loop variables for it, and
re-parsing the same line here yields the same values. -/
def pairLoop (fill : Bool) : List Str → PriceLut → Except PyErr PriceLut
  | l1 :: l2 :: rest, acc => do
      let currData := splitChar ',' l1
      let nextData := splitChar ',' l2
      let currDate ← parseDate (currData.headD [])
      let nextDate ← parseDate (nextData.headD [])
      let acc1 ← fillSteps (packedDate nextDate) currDate nextDate currData
        fill acc
      pairLoop fill (l2 :: rest) acc1
  | [l] , acc => do
      let nextData := splitChar ',' l
      let nextDate ← parseDate (nextData.headD [])
      let closeText ← listGetE nextData 4
      let v ← pyFloat closeText
      .ok (dictInsert acc (formatDate nextDate) v)
  | [], acc => .ok acc

/-- `DataManager.build_price_lut`, over the stripped lines of the
ticker's file.  The single-line branch of the source reads
`file_content[i]` where `i` is an undefined name, so it raises
`NameError`. -/
def buildPriceLut (lines : List Str) (fill : Bool) : Except PyErr PriceLut :=
  match lines with
  | [] => .ok []
  | [_] => .error .nameError
  | l1 :: l2 :: rest => pairLoop fill (l1 :: l2 :: rest) []

/-- `DataManager.build_price_lut` from the store. -/
def buildPriceLutFor (loc : Str) (store : Store) (t : Str) (fill : Bool) :
    Except PyErr PriceLut :=
  buildPriceLut (readlinesFor loc store t) fill

/-- A position of the strategy structure: `is_holding` starts out false,
the ratio is `float(ratio)`, the ticker is upper-cased and the two
signals are kept as raw text. -/
structure StrategyPosition where
  is_holding : Bool
  ratio : PyFloat
  ticker : Str
  buy_signal : Str
  sell_signal : Str
deriving DecidableEq, Repr

/-- The strategy structure: asset set plus positions in file order.
Python sets are modelled as duplicate-free lists in insertion order; only
membership is ever observed. -/
structure Strategy where
  assets : List Str
  positions : List StrategyPosition
deriving DecidableEq, Repr

/-- Python `set.add`. -/
def setAdd (s : List Str) (x : Str) : List Str :=
  if x ∈ s then s else s ++ [x]

/-- Python `set |= other`. -/
def setUnion (s other : List Str) : List Str := other.foldl setAdd s

/-- Python tuple unpacking `(a, b) = xs` of a list: `ValueError` unless
the list has exactly two elements. -/
def unpack2 (xs : List Str) : Except PyErr (Str × Str) :=
  match xs with
  | [a, b] => .ok (a, b)
  | _ => .error .valueError

/-- Python tuple unpacking `(a, b, c) = xs`. -/
def unpack3 (xs : List Str) : Except PyErr (Str × Str × Str) :=
  match xs with
  | [a, b, c] => .ok (a, b, c)
  | _ => .error .valueError

/-- Python tuple unpacking `(a, b, c, d) = xs`. -/
def unpack4 (xs : List Str) : Except PyErr (Str × Str × Str × Str) :=
  match xs with
  | [a, b, c, d] => .ok (a, b, c, d)
  | _ => .error .valueError

/-- `DataManager._parse_signal`: the sentinel literals reference nothing;
otherwise split on single spaces into exactly three tokens, split each
outer term on `~` into ticker and indicator, upper-case the tickers, and
collect every indicator other than the literal `PRICE` upper-cased.
Tuple-unpacking failures are `ValueError`. -/
def parseSignal (signal_code : Str) : Except PyErr (List Str × List Str) :=
  if signal_code = str "ALWAYS" || signal_code = str "NEVER" then .ok ([], [])
  else do
    let parts ← unpack3 (splitChar ' ' signal_code)
    let pa ← unpack2 (splitChar '~' parts.1)
    let pb ← unpack2 (splitChar '~' parts.2.2)
    let tickers := setAdd (setAdd [] (pyUpper pa.1)) (pyUpper pb.1)
    let ind1 := if ¬ pa.2 = str "PRICE" then setAdd [] (pyUpper pa.2) else []
    let indicators :=
      if ¬ pb.2 = str "PRICE" then setAdd ind1 (pyUpper pb.2) else ind1
    .ok (tickers, indicators)

/-- The per-line body of `DataManager.build_strategy`, threading the
strategy structure and the two accumulated sets.  As in the source, the
line is comma-split into exactly four fields, the signals are parsed
first, and `float(ratio)` is evaluated when the position is appended. -/
def buildStrategyAux : List Str → Strategy → List Str → List Str →
    Except PyErr (Strategy × List Str × List Str)
  | [], strat, stocks, inds => .ok (strat, stocks, inds)
  | line :: rest, strat, stocks, inds => do
      let f ← unpack4 (splitChar ',' line)
      let (r, t, bs, ss) := f
      let assets1 := setAdd strat.assets (pyUpper t)
      let stocks1 := setAdd stocks (pyUpper t)
      let (tk1, in1) ← parseSignal bs
      let stocks2 := setUnion stocks1 tk1
      let inds2 := setUnion inds in1
      let (tk2, in2) ← parseSignal ss
      let stocks3 := setUnion stocks2 tk2
      let inds3 := setUnion inds2 in2
      let rv ← pyFloat r
      let strat1 : Strategy :=
        ⟨assets1, strat.positions ++ [⟨false, rv, pyUpper t, bs, ss⟩]⟩
      buildStrategyAux rest strat1 stocks3 inds3

/-- `DataManager.build_strategy`, over the stripped lines of the strategy
file. -/
def buildStrategy (lines : List Str) :
    Except PyErr (Strategy × List Str × List Str) :=
  buildStrategyAux lines ⟨[], []⟩ [] []

/-- The date field of a row as the merge logic reads it (`row[0]`); total
helper for theorem statements, row non-emptiness is carried separately. -/
def rowDate (r : Row) : Str := r.headD []

/-- Date field of the first row. -/
def firstRowDate (rows : List Row) : Str := rowDate (rows.headD [])

/-- Date field of the last row. -/
def lastRowDate (rows : List Row) : Str := rowDate ((rows.getLast?).getD [])

/-- The dates visited by the `fill=True` walk from `curr` (inclusive) up
to `next` (exclusive), with the same fuel discipline as `fillSteps`. -/
def dateRange : Nat → Date → Date → List Date
  | 0, _, _ => []
  | fuel + 1, curr, next =>
      if dateLtB curr next then curr :: dateRange fuel (nextDay curr) next
      else []

/-- The entries `build_price_lut` emits with `fill=True` for a parsed
series (date and close value per stored row): a block of gap-filled
entries per consecutive pair, then the final row's own entry. -/
def rangesFor : List (Date × PyFloat) → List (Str × PyFloat)
  | [] => []
  | [(dl, cl)] => [(formatDate dl, cl)]
  | (d1, c1) :: (d2, c2) :: rest =>
      (dateRange (packedDate d2) d1 d2).map (fun D => (formatDate D, c1)) ++
        rangesFor ((d2, c2) :: rest)

/-- The date field of a stored line as `build_price_lut` reads it:
`line.split(',')[0]` parsed by `strptime`. -/
def dateOfLine (l : Str) : Except PyErr Date :=
  parseDate ((splitChar ',' l).headD [])

/-- `a ≤ b` on dates, expressed through the embedded comparison. -/
def dateLe (a b : Date) : Prop := dateLtB b a = false

instance (a b : Date) : Decidable (dateLe a b) := by
  unfold dateLe; infer_instance

/-- The close field of a comma-split line: `values[4]` parsed by
`float`. -/
def closeOfFields (fields : List Str) : Except PyErr PyFloat := do
  let f ← listGetE fields 4
  pyFloat f

/-- A stored line parses to date `D` (a valid date) and close value
`cv`. -/
def LineOK (l : Str) (D : Date) (cv : PyFloat) : Prop :=
  dateOfLine l = .ok D ∧ ValidDate D ∧
    closeOfFields (splitChar ',' l) = .ok cv

instance (l : Str) (D : Date) (cv : PyFloat) : Decidable (LineOK l D cv) := by
  unfold LineOK; infer_instance

/-- The close value of the most recent row dated on or before `D`:
what the spec calls the carried-forward price. -/
def lastCloseLE (D : Date) (ps : List (Date × PyFloat)) : Option PyFloat :=
  ((ps.filter (fun p => dateLtB D p.1 = false)).getLast?).map Prod.snd

/-! Basic lemmas about the string utilities. -/

theorem splitCharAux_ne_nil (sep : Char) (l pending : List Char) :
    splitCharAux sep l pending ≠ [] := by
  induction l generalizing pending with
  | nil => simp [splitCharAux]
  | cons c cs ih =>
      by_cases h : c = sep <;> simp [splitCharAux, h, ih]

theorem splitChar_ne_nil (sep : Char) (s : Str) : splitChar sep s ≠ [] :=
  splitCharAux_ne_nil sep s []

theorem splitCharAux_no_sep (sep : Char) (l pending : List Char)
    (h : sep ∉ l) : splitCharAux sep l pending = [pending.reverse ++ l] := by
  induction l generalizing pending with
  | nil => simp [splitCharAux]
  | cons c cs ih =>
      have hc : ¬ c = sep := fun e => h (by simp [e])
      have hcs : sep ∉ cs := fun e => h (by simp [e])
      simp only [splitCharAux, if_neg hc]
      rw [ih (c :: pending) hcs]
      simp

theorem splitCharAux_sep_append (sep : Char) (l pending rest : List Char)
    (h : sep ∉ l) :
    splitCharAux sep (l ++ sep :: rest) pending =
      (pending.reverse ++ l) :: splitCharAux sep rest [] := by
  induction l generalizing pending with
  | nil => simp [splitCharAux]
  | cons c cs ih =>
      have hc : ¬ c = sep := fun e => h (by simp [e])
      have hcs : sep ∉ cs := fun e => h (by simp [e])
      simp only [List.cons_append, splitCharAux, if_neg hc, List.append_eq]
      rw [ih (c :: pending) hcs]
      simp

theorem splitChar_joinSep (sep : Char) (parts : List Str)
    (hne : parts ≠ []) (h : ∀ p ∈ parts, sep ∉ p) :
    splitChar sep (joinSep sep parts) = parts := by
  induction parts with
  | nil => exact absurd rfl hne
  | cons p rest ih =>
      cases rest with
      | nil =>
          simpa [splitChar, joinSep] using
            splitCharAux_no_sep sep p [] (h p (by simp))
      | cons q rest2 =>
          have hp : sep ∉ p := h p (by simp)
          have hrest : ∀ x ∈ q :: rest2, sep ∉ x := fun x hx => h x (by simp [hx])
          simp only [joinSep, splitChar]
          rw [splitCharAux_sep_append sep p [] (joinSep sep (q :: rest2)) hp]
          simp only [List.reverse_nil, List.nil_append, List.cons.injEq, true_and]
          exact ih (by simp) hrest

theorem mem_joinSep (sep c : Char) (parts : List Str)
    (h : c ∈ joinSep sep parts) : c = sep ∨ ∃ p ∈ parts, c ∈ p := by
  induction parts with
  | nil => simp [joinSep] at h
  | cons p rest ih =>
      cases rest with
      | nil =>
          simp only [joinSep] at h
          exact Or.inr ⟨p, by simp, h⟩
      | cons q rest2 =>
          simp only [joinSep, List.mem_append, List.mem_cons] at h
          rcases h with h | h | h
          · exact Or.inr ⟨p, by simp, h⟩
          · exact Or.inl h
          · rcases ih h with h | ⟨x, hx, hcx⟩
            · exact Or.inl h
            · exact Or.inr ⟨x, by simp [List.mem_cons] at hx ⊢; tauto, hcx⟩

theorem pyLinesAux_nl_append (l pending rest : List Char) (h : '\n' ∉ l) :
    pyLinesAux (l ++ '\n' :: rest) pending =
      (pending.reverse ++ l) :: pyLinesAux rest [] := by
  induction l generalizing pending with
  | nil => simp [pyLinesAux]
  | cons c cs ih =>
      have hc : ¬ c = '\n' := fun e => h (by simp [e])
      have hcs : '\n' ∉ cs := fun e => h (by simp [e])
      simp only [List.cons_append, pyLinesAux, if_neg hc, List.append_eq]
      rw [ih (c :: pending) hcs]
      simp

theorem pyLines_serializeRows (rows : List Row)
    (h : ∀ r ∈ rows, ∀ f ∈ r, '\n' ∉ f) :
    pyLines (serializeRows rows) = rows.map (joinSep ',') := by
  induction rows with
  | nil => rfl
  | cons r rest ih =>
      have hline : '\n' ∉ joinSep ',' r := by
        intro hmem
        rcases mem_joinSep ',' '\n' r hmem with e | ⟨f, hf, hcf⟩
        · exact absurd e (by decide)
        · exact h r (by simp) f hf hcf
      have : serializeRows (r :: rest) =
          joinSep ',' r ++ '\n' :: serializeRows rest := by
        simp [serializeRows]
      rw [List.map_cons, this]
      unfold pyLines
      rw [pyLinesAux_nl_append _ [] _ hline]
      simp only [List.reverse_nil, List.nil_append, List.cons.injEq, true_and]
      exact ih (fun x hx => h x (by simp [hx]))

theorem dropWhile_eq_self_head {p : Char → Bool} (l : List Char)
    (h : ∀ c, l.head? = some c → p c = false) : l.dropWhile p = l := by
  cases l with
  | nil => rfl
  | cons c cs => simp [List.dropWhile_cons, h c rfl]

theorem pyStrip_eq_self (l : Str)
    (h1 : ∀ c, l.head? = some c → isPySpace c = false)
    (h2 : ∀ c, l.getLast? = some c → isPySpace c = false) :
    pyStrip l = l := by
  unfold pyStrip
  rw [dropWhile_eq_self_head l h1]
  rw [dropWhile_eq_self_head l.reverse
    (fun c hc => h2 c (by rwa [List.head?_reverse] at hc))]
  exact List.reverse_reverse l

theorem joinSep_head (sep : Char) (r : List Str) (c : Char)
    (h : (joinSep sep r).head? = some c) :
    c = sep ∨ ∃ f ∈ r, f.head? = some c := by
  induction r with
  | nil => simp [joinSep] at h
  | cons x rest ih =>
      cases rest with
      | nil => exact Or.inr ⟨x, by simp, h⟩
      | cons y rest2 =>
          simp only [joinSep] at h
          cases x with
          | nil =>
              simp only [List.nil_append, List.head?_cons,
                Option.some.injEq] at h
              exact Or.inl h.symm
          | cons a as_ =>
              simp only [List.cons_append, List.head?_cons,
                Option.some.injEq] at h
              exact Or.inr ⟨a :: as_, by simp, by simp [h]⟩

theorem joinSep_getLast (sep : Char) (r : List Str) (c : Char)
    (h : (joinSep sep r).getLast? = some c) :
    c = sep ∨ ∃ f ∈ r, f.getLast? = some c := by
  induction r with
  | nil => simp [joinSep] at h
  | cons x rest ih =>
      cases rest with
      | nil => exact Or.inr ⟨x, by simp, h⟩
      | cons y rest2 =>
          simp only [joinSep] at h
          rw [List.getLast?_append_cons] at h
          cases hj : joinSep sep (y :: rest2) with
          | nil =>
              rw [hj] at h
              simp only [List.getLast?_singleton, Option.some.injEq] at h
              exact Or.inl h.symm
          | cons j js =>
              rw [hj, List.getLast?_cons_cons] at h
              rw [← hj] at h
              rcases ih h with e | ⟨f, hf, hcf⟩
              · exact Or.inl e
              · exact Or.inr ⟨f, by simp [List.mem_cons] at hf ⊢; tauto, hcf⟩

theorem strLtB_irrefl (a : Str) : strLtB a a = false := by
  induction a with
  | nil => rfl
  | cons c cs ih => simp [strLtB, lt_irrefl, ih]

theorem strLtB_trans {a b c : Str} (h1 : strLtB a b = true)
    (h2 : strLtB b c = true) : strLtB a c = true := by
  induction a generalizing b c with
  | nil =>
      cases b with
      | nil => simp [strLtB] at h1
      | cons y ys =>
          cases c with
          | nil => simp [strLtB] at h2
          | cons z zs => rfl
  | cons x xs ih =>
      cases b with
      | nil => simp [strLtB] at h1
      | cons y ys =>
          cases c with
          | nil => simp [strLtB] at h2
          | cons z zs =>
              by_cases hxy : x < y
              · by_cases hyz : y < z
                · simp [strLtB, lt_trans hxy hyz]
                · by_cases hyz2 : y = z
                  · subst hyz2; simp [strLtB, hxy]
                  · simp [strLtB, hyz, hyz2] at h2
              · by_cases hxy2 : x = y
                · subst hxy2
                  by_cases hyz : x < z
                  · simp [strLtB, hyz]
                  · by_cases hyz2 : x = z
                    · subst hyz2
                      simp only [strLtB, if_neg (lt_irrefl x), if_pos rfl]
                        at h1 h2 ⊢
                      exact ih h1 h2
                    · simp [strLtB, hyz, hyz2] at h2
                · simp [strLtB, hxy, hxy2] at h1

theorem mem_setAdd_self (s : List Str) (x : Str) : x ∈ setAdd s x := by
  unfold setAdd; split
  · assumption
  · simp

theorem mem_setAdd_of_mem (s : List Str) (x a : Str) (h : a ∈ s) :
    a ∈ setAdd s x := by
  unfold setAdd; split <;> simp [h]

theorem lookupStore_any (store : Store) (f : Str) :
    (lookupStore store f).isSome = store.any (fun p => p.1 = f) := by
  induction store with
  | nil => rfl
  | cons p rest ih =>
      obtain ⟨k, v⟩ := p
      by_cases h : k = f <;> simp [lookupStore, h, ih]

theorem lookupStore_append_none (store l2 : Store) (f : Str)
    (h : lookupStore store f = none) :
    lookupStore (store ++ l2) f = lookupStore l2 f := by
  induction store with
  | nil => rfl
  | cons p rest ih =>
      obtain ⟨k, v⟩ := p
      by_cases hk : k = f
      · simp [lookupStore, hk] at h
      · simp only [List.cons_append, lookupStore, if_neg hk] at h ⊢
        exact ih h

theorem lookup_appendFileA (store : Store) (f s : Str) :
    lookupStore (appendFileA store f s) f =
      some ((lookupStore store f).getD [] ++ s) := by
  induction store with
  | nil => simp [appendFileA, lookupStore]
  | cons p rest ih =>
      obtain ⟨k, v⟩ := p
      by_cases hk : k = f
      · subst hk
        simp [appendFileA, lookupStore]
      · have hany : ((k, v) :: rest).any (fun p => p.1 = f) =
            rest.any (fun p => p.1 = f) := by simp [hk]
        cases hrest : rest.any (fun p => p.1 = f) with
        | true =>
            simp only [appendFileA, hany, hrest, if_pos]
            simp only [List.map_cons, if_neg hk]
            simp only [lookupStore, if_neg hk]
            have : rest.map
                (fun p => if p.1 = f then (p.1, p.2 ++ s) else p) =
                appendFileA rest f s := by
              simp [appendFileA, hrest]
            rw [this, ih]
        | false =>
            simp only [appendFileA, hany, hrest, if_neg Bool.false_ne_true]
            simp only [List.cons_append, List.append_eq, lookupStore,
              if_neg hk]
            have hnone : lookupStore rest f = none := by
              cases ho : lookupStore rest f with
              | none => rfl
              | some cc =>
                  rw [← lookupStore_any, ho] at hrest
                  simp at hrest
            rw [lookupStore_append_none rest [(f, s)] f hnone, hnone]
            simp [lookupStore]

theorem appendFileA_empty (store : Store) (f : Str) (c : Str)
    (h : lookupStore store f = some c) : appendFileA store f [] = store := by
  have hany : store.any (fun p => p.1 = f) = true := by
    rw [← lookupStore_any, h]; rfl
  unfold appendFileA
  rw [if_pos hany]
  have : ∀ p : Str × Str,
      (if p.1 = f then (p.1, p.2 ++ ([] : Str)) else p) = p := by
    intro p; split <;> simp
  simp only [this]
  exact List.map_id' store

theorem lookup_writeFileW (store : Store) (f s : Str) :
    lookupStore (writeFileW store f s) f = some s := by
  induction store with
  | nil => simp [writeFileW, lookupStore]
  | cons p rest ih =>
      obtain ⟨k, v⟩ := p
      by_cases hk : k = f
      · subst hk
        simp [writeFileW, lookupStore]
      · have hany : ((k, v) :: rest).any (fun p => p.1 = f) =
            rest.any (fun p => p.1 = f) := by simp [hk]
        cases hrest : rest.any (fun p => p.1 = f) with
        | true =>
            simp only [writeFileW, hany, hrest, if_pos]
            simp only [List.map_cons, if_neg hk]
            simp only [lookupStore, if_neg hk]
            have : rest.map (fun p => if p.1 = f then (p.1, s) else p) =
                writeFileW rest f s := by
              simp [writeFileW, hrest]
            rw [this, ih]
        | false =>
            simp only [writeFileW, hany, hrest, if_neg Bool.false_ne_true]
            simp only [List.cons_append, List.append_eq, lookupStore,
              if_neg hk]
            have hnone : lookupStore rest f = none := by
              cases ho : lookupStore rest f with
              | none => rfl
              | some cc =>
                  rw [← lookupStore_any, ho] at hrest
                  simp at hrest
            rw [lookupStore_append_none rest [(f, s)] f hnone]
            simp [lookupStore]

/-! Reduction helpers for the `Except` monad and the unpack helpers. -/

theorem exceptBind_ok {α β : Type} (a : α) (f : α → Except PyErr β) :
    (Except.ok a >>= f) = f a := rfl

theorem exceptBind_error {α β : Type} (e : PyErr) (f : α → Except PyErr β) :
    ((Except.error e : Except PyErr α) >>= f) = .error e := rfl

theorem unpack2_error (xs : List Str) (h : xs.length ≠ 2) :
    unpack2 xs = .error .valueError := by
  match xs with
  | [] => rfl
  | [a] => rfl
  | [a, b] => simp at h
  | a :: b :: c :: rest => rfl

theorem unpack3_error (xs : List Str) (h : xs.length ≠ 3) :
    unpack3 xs = .error .valueError := by
  match xs with
  | [] => rfl
  | [a] => rfl
  | [a, b] => rfl
  | [a, b, c] => simp at h
  | a :: b :: c :: d :: rest => rfl

/-! The claims. -/

/-- C3: the spec says a single-row stored series yields a one-entry price
lookup table for either value of `fill`; the code instead reads
`file_content[i]` with `i` undefined in the single-line branch and raises
`NameError`.  This theorem evaluates the embedded code at the failing
input (a stored series of the single row `2024-03-01,1,1,1,42,100`). -/
theorem build_price_lut_single_row_name_error :
    buildPriceLut [str "2024-03-01,1,1,1,42,100"] true = .error .nameError ∧
    buildPriceLut [str "2024-03-01,1,1,1,42,100"] false = .error .nameError :=
  ⟨rfl, rfl⟩

/-- C6: parsing the strategy source line
`0.5,AAPL,ALWAYS,CLOSE~PRICE < AAPL~SMA20` yields one position with
ratio `float("0.5")` (the exact decimal 5/10), ticker `AAPL`, the raw
signal texts and `is_holding` false; the instrument set contains `AAPL`
and `CLOSE`, and the indicator set contains `SMA20` but not `PRICE`. -/
theorem build_strategy_single_line :
    ∃ strat stocks inds,
      buildStrategy [str "0.5,AAPL,ALWAYS,CLOSE~PRICE < AAPL~SMA20"] =
        .ok (strat, stocks, inds) ∧
      strat.positions =
        [⟨false, ⟨5, 1⟩, str "AAPL", str "ALWAYS",
          str "CLOSE~PRICE < AAPL~SMA20"⟩] ∧
      PyFloat.toRat ⟨5, 1⟩ = 1 / 2 ∧
      str "AAPL" ∈ stocks ∧ str "CLOSE" ∈ stocks ∧
      str "SMA20" ∈ inds ∧ str "PRICE" ∉ inds := by
  refine ⟨⟨[str "AAPL"],
      [⟨false, ⟨5, 1⟩, str "AAPL", str "ALWAYS",
        str "CLOSE~PRICE < AAPL~SMA20"⟩]⟩,
    [str "AAPL", str "CLOSE"], [str "SMA20"],
    by decide, by decide, ?_, by decide, by decide, by decide, by decide⟩
  norm_num [PyFloat.toRat]

/-- C7, counterexample to the claim as stated: the spec calls
`"A~B C~D E~F"` a four-token string that must raise, but it splits into
exactly three space-tokens and parses successfully. -/
theorem parse_signal_three_token_example_ok :
    parseSignal (str "A~B C~D E~F") =
      .ok ([str "A", str "E"], [str "B", str "F"]) := by decide

/-- C7 as amended: for every signal string other than the exact literals
`ALWAYS` and `NEVER`, parsing fails with a raised error whenever the
string does not split on single spaces into exactly three tokens, or
whenever either outer term does not split on `~` into exactly two parts
(witness example: the genuinely four-token `"A~B C~D E~F G~H"`). -/
theorem parse_signal_malformed_raises (s : Str)
    (hA : s ≠ str "ALWAYS") (hN : s ≠ str "NEVER")
    (hbad : (splitChar ' ' s).length ≠ 3 ∨
      ∃ a o b, splitChar ' ' s = [a, o, b] ∧
        ((splitChar '~' a).length ≠ 2 ∨ (splitChar '~' b).length ≠ 2)) :
    ∃ e, parseSignal s = .error e := by
  unfold parseSignal
  rw [if_neg (by simp [hA, hN])]
  rcases hbad with hlen | ⟨a, o, b, hsp, hterm⟩
  · rw [unpack3_error _ hlen]
    rw [exceptBind_error]
    exact ⟨_, rfl⟩
  · rw [hsp]
    simp only [unpack3, exceptBind_ok]
    rcases hterm with h2 | h2
    · rw [unpack2_error _ h2, exceptBind_error]
      exact ⟨_, rfl⟩
    · by_cases hlen2 : (splitChar '~' a).length = 2
      · obtain ⟨t, i, hti⟩ := List.length_eq_two.mp hlen2
        rw [hti, show unpack2 [t, i] = .ok (t, i) from rfl, exceptBind_ok]
        rw [unpack2_error _ h2, exceptBind_error]
        exact ⟨_, rfl⟩
      · rw [unpack2_error _ hlen2, exceptBind_error]
        exact ⟨_, rfl⟩

/-- Witness for C7 as amended, at a string that really has four
space-tokens. -/
theorem parse_signal_malformed_raises_witness :
    ∃ e, parseSignal (str "A~B C~D E~F G~H") = .error e :=
  parse_signal_malformed_raises (str "A~B C~D E~F G~H")
    (by decide) (by decide) (Or.inl (by decide))

/-- C9: the `PRICE` exclusion is case-sensitive.  A term whose indicator
text upper-cases to `PRICE` without being exactly `PRICE` (such as
`price`) is not excluded: the parser upper-cases it and `PRICE` lands in
the returned indicator set. -/
theorem price_exclusion_case_sensitive (s a o b ta ia tb ib : Str)
    (hA : s ≠ str "ALWAYS") (hN : s ≠ str "NEVER")
    (hsp : splitChar ' ' s = [a, o, b])
    (ha : splitChar '~' a = [ta, ia])
    (hb : splitChar '~' b = [tb, ib])
    (hlower : (ia ≠ str "PRICE" ∧ pyUpper ia = str "PRICE") ∨
      (ib ≠ str "PRICE" ∧ pyUpper ib = str "PRICE")) :
    ∃ tk ind, parseSignal s = .ok (tk, ind) ∧ str "PRICE" ∈ ind := by
  unfold parseSignal
  rw [if_neg (by simp [hA, hN])]
  rw [hsp]
  simp only [unpack3, exceptBind_ok]
  rw [ha, hb]
  simp only [unpack2, exceptBind_ok]
  refine ⟨_, _, rfl, ?_⟩
  rcases hlower with ⟨hne, hup⟩ | ⟨hne, hup⟩
  · rw [hup]
    by_cases h2 : ib = str "PRICE"
    · simp [h2, hne, mem_setAdd_self]
    · have := mem_setAdd_of_mem (setAdd [] (str "PRICE")) (pyUpper ib)
        (str "PRICE") (mem_setAdd_self [] (str "PRICE"))
      simpa [h2, hne] using this
  · rw [hup]
    simp [hne, mem_setAdd_self]

/-- Witness for C9 at the signal `A~price < B~SMA20`. -/
theorem price_exclusion_case_sensitive_witness :
    ∃ tk ind, parseSignal (str "A~price < B~SMA20") = .ok (tk, ind) ∧
      str "PRICE" ∈ ind :=
  price_exclusion_case_sensitive (str "A~price < B~SMA20")
    (str "A~price") (str "<") (str "B~SMA20")
    (str "A") (str "price") (str "B") (str "SMA20")
    (by decide) (by decide) (by decide) (by decide) (by decide)
    (Or.inl ⟨by decide, by decide⟩)

/-! Lemmas about the record store and the merge step. -/

theorem rowDateE_cons (x : Str) (xs : List Str) :
    rowDateE (x :: xs) = .ok x := rfl

theorem lastRowDateE_eq (data : List Row) (hne : data ≠ [])
    (hrows : ∀ r ∈ data, r ≠ []) :
    lastRowDateE data = .ok (lastRowDate data) := by
  unfold lastRowDateE lastRowDate
  cases hgd : data.getLast? with
  | none => exact absurd (List.getLast?_eq_none_iff.mp hgd) hne
  | some r =>
      have hr : r ≠ [] :=
        hrows r (List.mem_of_mem_getLast? (by rw [hgd]; rfl))
      obtain ⟨y, ys, rfl⟩ := List.exists_cons_of_ne_nil hr
      rfl

theorem firstRowDateE_eq (data : List Row) (hne : data ≠ [])
    (hrows : ∀ r ∈ data, r ≠ []) :
    firstRowDateE data = .ok (firstRowDate data) := by
  unfold firstRowDateE firstRowDate
  cases hgd : data.head? with
  | none => exact absurd (List.head?_eq_none_iff.mp hgd) hne
  | some r =>
      have hr : r ≠ [] := hrows r (List.mem_of_mem_head? (by rw [hgd]; rfl))
      obtain ⟨y, ys, rfl⟩ := List.exists_cons_of_ne_nil hr
      have : data.headD [] = y :: ys := by
        cases data with
        | nil => simp at hgd
        | cons a as_ =>
            simp at hgd
            simp [hgd]
      rw [this]
      rfl

theorem mergeAppend_of_getLast (existing data : List Row) (lastRow : Row)
    (h : existing.getLast? = some lastRow) :
    mergeAppend existing data = (do
      let lastDate ← rowDateE lastRow
      let dataLast ← lastRowDateE data
      if strLtB lastDate dataLast then do
        let dataFirst ← firstRowDateE data
        if strLtB dataFirst lastDate then do
          let i ← findDateIdx lastDate data 0
          .ok (data.drop (i + 1))
        else .ok []
      else .ok []) := by
  unfold mergeAppend
  rw [h]

theorem mergeAppend_no_overlap (existing data : List Row)
    (hex : existing ≠ []) (hexrows : ∀ r ∈ existing, r ≠ [])
    (hne : data ≠ []) (hrows : ∀ r ∈ data, r ≠ [])
    (hnc : ¬ (strLtB (lastRowDate existing) (lastRowDate data) = true ∧
      strLtB (firstRowDate data) (lastRowDate existing) = true)) :
    mergeAppend existing data = .ok [] := by
  cases hgl : existing.getLast? with
  | none => exact absurd (List.getLast?_eq_none_iff.mp hgl) hex
  | some lastRow =>
      have hlr : lastRow ≠ [] :=
        hexrows lastRow (List.mem_of_mem_getLast? (by rw [hgl]; rfl))
      obtain ⟨x, xs, hxe⟩ := List.exists_cons_of_ne_nil hlr
      have hL : lastRowDate existing = x := by
        unfold lastRowDate
        rw [hgl, hxe]
        rfl
      rw [mergeAppend_of_getLast existing data lastRow hgl, hxe,
        rowDateE_cons, exceptBind_ok,
        lastRowDateE_eq data hne hrows, exceptBind_ok]
      rw [hL] at hnc
      by_cases hb1 : strLtB x (lastRowDate data) = true
      · rw [if_pos hb1, firstRowDateE_eq data hne hrows, exceptBind_ok]
        have hb2 : ¬ strLtB (firstRowDate data) x = true := fun hb2 =>
          hnc ⟨hb1, hb2⟩
        rw [if_neg hb2]
      · rw [if_neg hb1]

theorem readStockData_row (loc : Str) (store : Store) (t : Str) :
    readStockData loc store t (str "row") =
      .ok (readCsvRowsFor loc store t) := by
  unfold readStockData
  rw [if_neg (by decide), if_pos rfl]

theorem readCsvRowsFor_rows_ne_nil (loc : Str) (store : Store) (t : Str) :
    ∀ r ∈ readCsvRowsFor loc store t, r ≠ [] := by
  intro r hr
  unfold readCsvRowsFor at hr
  obtain ⟨l, hl, rfl⟩ := List.mem_map.mp hr
  intro h
  exact splitChar_ne_nil ',' l (List.map_eq_nil_iff.mp h)

theorem lookupStore_of_read_ne_nil (loc : Str) (store : Store) (t : Str)
    (hex : readCsvRowsFor loc store t ≠ []) :
    ∃ c, lookupStore store (filenameFor loc t) = some c := by
  unfold readCsvRowsFor readlinesFor at hex
  cases h : lookupStore store (filenameFor loc t) with
  | none =>
      rw [h] at hex
      simp at hex
  | some c => exact ⟨c, rfl⟩

/-- C2: with a non-empty stored series whose last date `L` fails the
containment test against a non-empty incoming series (not strictly
between the incoming's first and last dates), a write with `append=True`
computes an empty to-append subset and leaves the store exactly as it
was - a silent no-append, not an error. -/
theorem write_append_no_overlap_noop (loc : Str) (store : Store) (t : Str)
    (data : List Row)
    (hex : readCsvRowsFor loc store t ≠ [])
    (hne : data ≠ []) (hrows : ∀ r ∈ data, r ≠ [])
    (hnc : ¬ (strLtB (lastRowDate (readCsvRowsFor loc store t))
        (lastRowDate data) = true ∧
      strLtB (firstRowDate data)
        (lastRowDate (readCsvRowsFor loc store t)) = true)) :
    mergeAppend (readCsvRowsFor loc store t) data = .ok [] ∧
    writeStockData loc store t data true = .ok store := by
  have hexrows := readCsvRowsFor_rows_ne_nil loc store t
  have hmerge := mergeAppend_no_overlap _ data hex hexrows hne hrows hnc
  refine ⟨hmerge, ?_⟩
  unfold writeStockData
  rw [if_pos rfl, readStockData_row, exceptBind_ok, hmerge, exceptBind_ok]
  unfold writeDataToCsvFile
  rw [if_pos rfl]
  obtain ⟨c, hc⟩ := lookupStore_of_read_ne_nil loc store t hex
  rw [show serializeRows [] = [] from rfl,
    appendFileA_empty store (filenameFor loc t) c hc]

/-- Witness for C2: existing series ends at 2024-01-02, incoming series
is entirely later (no shared splice date, boundary test fails), so the
write returns the store unchanged. -/
theorem write_append_no_overlap_noop_witness :
    mergeAppend
        (readCsvRowsFor (str "data/")
          [(str "data/A.csv", str "2024-01-02,1,2,3,4,5\n")] (str "A"))
        [[str "2024-02-01", str "1", str "2", str "3", str "4", str "5"]] =
      .ok [] ∧
    writeStockData (str "data/")
        [(str "data/A.csv", str "2024-01-02,1,2,3,4,5\n")] (str "A")
        [[str "2024-02-01", str "1", str "2", str "3", str "4", str "5"]]
        true =
      .ok [(str "data/A.csv", str "2024-01-02,1,2,3,4,5\n")] :=
  write_append_no_overlap_noop (str "data/")
    [(str "data/A.csv", str "2024-01-02,1,2,3,4,5\n")] (str "A")
    [[str "2024-02-01", str "1", str "2", str "3", str "4", str "5"]]
    (by decide) (by decide) (by decide) (by decide)

theorem findDateIdx_not_found (target : Str) (data : List Row) :
    ∀ i : Nat, (∀ r ∈ data, r ≠ []) →
      (∀ r ∈ data, rowDate r ≠ target) →
      findDateIdx target data i = .error .stopIteration := by
  induction data with
  | nil => intro i _ _; rfl
  | cons r rs ih =>
      intro i hrows hne
      obtain ⟨x, xs, hxe⟩ := List.exists_cons_of_ne_nil (hrows r (by simp))
      have hx : x ≠ target := by
        have := hne r (by simp)
        rw [hxe] at this
        exact this
      unfold findDateIdx
      rw [hxe, rowDateE_cons, exceptBind_ok, if_neg hx]
      exact ih (i + 1) (fun a ha => hrows a (by simp [ha]))
        (fun a ha => hne a (by simp [ha]))

/-- C10: when the existing series' last date `L` passes the containment
test (strictly between the incoming's first and last dates) but no
incoming row's date equals `L`, the splice-index search exhausts its
generator and the write raises `StopIteration` instead of writing; the
store is never modified because the exception precedes the file write. -/
theorem write_append_missing_splice_raises (loc : Str) (store : Store)
    (t : Str) (data : List Row)
    (hex : readCsvRowsFor loc store t ≠ [])
    (hne : data ≠ []) (hrows : ∀ r ∈ data, r ≠ [])
    (hlt1 : strLtB (lastRowDate (readCsvRowsFor loc store t))
      (lastRowDate data) = true)
    (hlt2 : strLtB (firstRowDate data)
      (lastRowDate (readCsvRowsFor loc store t)) = true)
    (hmiss : ∀ r ∈ data,
      rowDate r ≠ lastRowDate (readCsvRowsFor loc store t)) :
    mergeAppend (readCsvRowsFor loc store t) data =
      .error .stopIteration ∧
    writeStockData loc store t data true = .error .stopIteration := by
  have hexrows := readCsvRowsFor_rows_ne_nil loc store t
  have hmerge : mergeAppend (readCsvRowsFor loc store t) data =
      .error .stopIteration := by
    cases hgl : (readCsvRowsFor loc store t).getLast? with
    | none => exact absurd (List.getLast?_eq_none_iff.mp hgl) hex
    | some lastRow =>
        have hlr : lastRow ≠ [] :=
          hexrows lastRow (List.mem_of_mem_getLast? (by rw [hgl]; rfl))
        obtain ⟨x, xs, hxe⟩ := List.exists_cons_of_ne_nil hlr
        have hL : lastRowDate (readCsvRowsFor loc store t) = x := by
          unfold lastRowDate
          rw [hgl, hxe]
          rfl
        rw [mergeAppend_of_getLast _ data lastRow hgl, hxe,
          rowDateE_cons, exceptBind_ok,
          lastRowDateE_eq data hne hrows, exceptBind_ok]
        rw [hL] at hlt1 hlt2 hmiss
        rw [if_pos hlt1, firstRowDateE_eq data hne hrows, exceptBind_ok,
          if_pos hlt2,
          findDateIdx_not_found x data 0 hrows hmiss, exceptBind_error]
  refine ⟨hmerge, ?_⟩
  unfold writeStockData
  rw [if_pos rfl, readStockData_row, exceptBind_ok, hmerge,
    exceptBind_error]

/-- Witness for C10: existing ends at 2024-01-02, incoming spans
2024-01-01 to 2024-01-03 but has no row dated 2024-01-02. -/
theorem write_append_missing_splice_raises_witness :
    mergeAppend
        (readCsvRowsFor (str "data/")
          [(str "data/A.csv", str "2024-01-02,1,2,3,4,5\n")] (str "A"))
        [[str "2024-01-01", str "1", str "2", str "3", str "4", str "5"],
         [str "2024-01-03", str "1", str "2", str "3", str "4", str "5"]] =
      .error .stopIteration ∧
    writeStockData (str "data/")
        [(str "data/A.csv", str "2024-01-02,1,2,3,4,5\n")] (str "A")
        [[str "2024-01-01", str "1", str "2", str "3", str "4", str "5"],
         [str "2024-01-03", str "1", str "2", str "3", str "4", str "5"]]
        true =
      .error .stopIteration :=
  write_append_missing_splice_raises (str "data/")
    [(str "data/A.csv", str "2024-01-02,1,2,3,4,5\n")] (str "A")
    [[str "2024-01-01", str "1", str "2", str "3", str "4", str "5"],
     [str "2024-01-03", str "1", str "2", str "3", str "4", str "5"]]
    (by decide) (by decide) (by decide) (by decide) (by decide) (by decide)

/-- C8: reading a ticker in row format never fails: it yields the empty
sequence when no file is stored for the ticker, and otherwise the file's
lines in order, each line stripped, split on commas, and each field
stripped - all fields stay text, no numeric conversion happens. -/
theorem read_stock_data_rows_spec (loc : Str) (store : Store) (t : Str) :
    (lookupStore store (filenameFor loc t) = none →
      readStockData loc store t (str "row") = .ok []) ∧
    (∀ c, lookupStore store (filenameFor loc t) = some c →
      readStockData loc store t (str "row") =
        .ok (((pyLines c).map pyStrip).map
          (fun l => (splitChar ',' l).map pyStrip))) := by
  constructor
  · intro h
    rw [readStockData_row]
    unfold readCsvRowsFor readlinesFor
    rw [h]
    rfl
  · intro c h
    rw [readStockData_row]
    unfold readCsvRowsFor readlinesFor
    rw [h]

/-- Witness for C8: a store holding one file for ticker A; reading B
yields the empty sequence, reading A yields the trimmed text rows. -/
theorem read_stock_data_rows_spec_witness :
    readStockData (str "data/")
        [(str "data/A.csv", str " 2024-01-02 ,1, 2,3,4,5\n")] (str "B")
        (str "row") =
      .ok [] ∧
    readStockData (str "data/")
        [(str "data/A.csv", str " 2024-01-02 ,1, 2,3,4,5\n")] (str "A")
        (str "row") =
      .ok [[str "2024-01-02", str "1", str "2", str "3", str "4",
        str "5"]] := by
  constructor
  · exact (read_stock_data_rows_spec (str "data/")
      [(str "data/A.csv", str " 2024-01-02 ,1, 2,3,4,5\n")] (str "B")).1
      (by decide)
  · have h := (read_stock_data_rows_spec (str "data/")
      [(str "data/A.csv", str " 2024-01-02 ,1, 2,3,4,5\n")] (str "A")).2
      (str " 2024-01-02 ,1, 2,3,4,5\n") (by decide)
    exact h.trans (by decide)

theorem findDateIdx_found (target : Str) (data : List Row) :
    ∀ (i j : Nat) (rj : Row), data[j]? = some rj → rowDate rj = target →
      (∀ (k : Nat) (rk : Row), k < j → data[k]? = some rk →
        rowDate rk ≠ target) →
      (∀ r ∈ data, r ≠ []) →
      findDateIdx target data i = .ok (i + j) := by
  induction data with
  | nil => intro i j rj hj; simp at hj
  | cons r rs ih =>
      intro i j rj hj htarget hfirst hrows
      obtain ⟨x, xs, hxe⟩ := List.exists_cons_of_ne_nil (hrows r (by simp))
      unfold findDateIdx
      rw [hxe, rowDateE_cons, exceptBind_ok]
      cases j with
      | zero =>
          have hr : r = rj := by simpa using hj
          have hx : x = target := by
            rw [← htarget, ← hr, hxe]
            rfl
          rw [if_pos hx, Nat.add_zero]
      | succ j2 =>
          have hx : ¬ x = target := by
            have := hfirst 0 r (Nat.succ_pos j2) (by simp)
            rw [hxe] at this
            exact this
          rw [if_neg hx]
          have hrec := ih (i + 1) j2 rj (by simpa using hj) htarget
            (fun k rk hk hget =>
              hfirst (k + 1) rk (Nat.succ_lt_succ hk) (by simpa using hget))
            (fun a ha => hrows a (by simp [ha]))
          rw [hrec]
          congr 1
          omega

/-- C1: with a non-empty stored series whose last date `L` is strictly
inside the incoming series' date span, and an incoming series sorted by
strictly ascending dates whose row `i` is dated `L`, a write with
`append=True` appends exactly the incoming rows after index `i` to the
stored file. -/
theorem write_append_merges_tail (loc : Str) (store : Store) (t : Str)
    (data : List Row) (i : Nat) (ri : Row) (c0 : Str)
    (hc0 : lookupStore store (filenameFor loc t) = some c0)
    (hex : readCsvRowsFor loc store t ≠ [])
    (hrows : ∀ r ∈ data, r ≠ [])
    (hsort : List.Chain'
      (fun a b => strLtB (rowDate a) (rowDate b) = true) data)
    (hi : data[i]? = some ri)
    (hdi : rowDate ri = lastRowDate (readCsvRowsFor loc store t))
    (hlt1 : strLtB (lastRowDate (readCsvRowsFor loc store t))
      (lastRowDate data) = true)
    (hlt2 : strLtB (firstRowDate data)
      (lastRowDate (readCsvRowsFor loc store t)) = true) :
    mergeAppend (readCsvRowsFor loc store t) data =
      .ok (data.drop (i + 1)) ∧
    ∃ store1, writeStockData loc store t data true = .ok store1 ∧
      lookupStore store1 (filenameFor loc t) =
        some (c0 ++ serializeRows (data.drop (i + 1))) := by
  have hexrows := readCsvRowsFor_rows_ne_nil loc store t
  have hne : data ≠ [] := by
    intro h
    subst h
    simp at hi
  have inst : IsTrans Row (fun a b => strLtB (rowDate a) (rowDate b) = true) :=
    ⟨fun a b c hab hbc => strLtB_trans hab hbc⟩
  have hpw := (@List.chain'_iff_pairwise Row _ inst data).mp hsort
  have hget := List.pairwise_iff_get.mp hpw
  have hilen : i < data.length := by
    by_contra hlen
    rw [List.getElem?_eq_none (by omega)] at hi
    simp at hi
  have hfirst : ∀ (k : Nat) (rk : Row), k < i → data[k]? = some rk →
      rowDate rk ≠ lastRowDate (readCsvRowsFor loc store t) := by
    intro k rk hk hgetk heq
    have hklen : k < data.length := by omega
    have h1 := hget ⟨k, hklen⟩ ⟨i, hilen⟩ hk
    have h2 : data.get ⟨k, hklen⟩ = rk := by
      have he := List.getElem?_eq_getElem hklen
      rw [he] at hgetk
      simpa using hgetk
    have h3 : data.get ⟨i, hilen⟩ = ri := by
      have he := List.getElem?_eq_getElem hilen
      rw [he] at hi
      simpa using hi
    rw [h2, h3, heq, hdi] at h1
    rw [strLtB_irrefl] at h1
    exact absurd h1 (by simp)
  have hmerge : mergeAppend (readCsvRowsFor loc store t) data =
      .ok (data.drop (i + 1)) := by
    cases hgl : (readCsvRowsFor loc store t).getLast? with
    | none => exact absurd (List.getLast?_eq_none_iff.mp hgl) hex
    | some lastRow =>
        have hlr : lastRow ≠ [] :=
          hexrows lastRow (List.mem_of_mem_getLast? (by rw [hgl]; rfl))
        obtain ⟨x, xs, hxe⟩ := List.exists_cons_of_ne_nil hlr
        have hL : lastRowDate (readCsvRowsFor loc store t) = x := by
          unfold lastRowDate
          rw [hgl, hxe]
          rfl
        rw [mergeAppend_of_getLast _ data lastRow hgl, hxe,
          rowDateE_cons, exceptBind_ok,
          lastRowDateE_eq data hne hrows, exceptBind_ok]
        rw [hL] at hlt1 hlt2 hdi hfirst
        rw [if_pos hlt1, firstRowDateE_eq data hne hrows, exceptBind_ok,
          if_pos hlt2,
          findDateIdx_found x data 0 i ri hi hdi hfirst hrows,
          exceptBind_ok]
        rw [Nat.zero_add]
  refine ⟨hmerge, ?_⟩
  unfold writeStockData
  rw [if_pos rfl, readStockData_row, exceptBind_ok, hmerge, exceptBind_ok]
  refine ⟨_, rfl, ?_⟩
  unfold writeDataToCsvFile
  rw [if_pos rfl, lookup_appendFileA, hc0]
  rfl

/-- Witness for C1, the spec's own example: existing rows dated
2024-01-01 and 2024-01-02, incoming rows dated 2024-01-01 through
2024-01-03; exactly the single 2024-01-03 row is appended. -/
theorem write_append_merges_tail_witness :
    mergeAppend
        (readCsvRowsFor (str "data/")
          [(str "data/A.csv",
            str "2024-01-01,1,2,3,4,5\n2024-01-02,1,2,3,4,5\n")] (str "A"))
        [[str "2024-01-01", str "1", str "2", str "3", str "4", str "5"],
         [str "2024-01-02", str "1", str "2", str "3", str "4", str "5"],
         [str "2024-01-03", str "1", str "2", str "3", str "4", str "5"]] =
      .ok [[str "2024-01-03", str "1", str "2", str "3", str "4",
        str "5"]] ∧
    ∃ store1,
      writeStockData (str "data/")
          [(str "data/A.csv",
            str "2024-01-01,1,2,3,4,5\n2024-01-02,1,2,3,4,5\n")] (str "A")
          [[str "2024-01-01", str "1", str "2", str "3", str "4", str "5"],
           [str "2024-01-02", str "1", str "2", str "3", str "4", str "5"],
           [str "2024-01-03", str "1", str "2", str "3", str "4", str "5"]]
          true =
        .ok store1 ∧
      lookupStore store1 (filenameFor (str "data/") (str "A")) =
        some (str ("2024-01-01,1,2,3,4,5\n2024-01-02,1,2,3,4,5\n" ++
          "2024-01-03,1,2,3,4,5\n")) := by
  have h := write_append_merges_tail (str "data/")
    [(str "data/A.csv",
      str "2024-01-01,1,2,3,4,5\n2024-01-02,1,2,3,4,5\n")] (str "A")
    [[str "2024-01-01", str "1", str "2", str "3", str "4", str "5"],
     [str "2024-01-02", str "1", str "2", str "3", str "4", str "5"],
     [str "2024-01-03", str "1", str "2", str "3", str "4", str "5"]]
    1 [str "2024-01-02", str "1", str "2", str "3", str "4", str "5"]
    (str "2024-01-01,1,2,3,4,5\n2024-01-02,1,2,3,4,5\n")
    (by decide) (by decide) (by decide)
    (by simp only [List.chain'_cons, List.chain'_singleton, and_true]
        exact ⟨by decide, by decide⟩)
    (by decide) (by decide) (by decide) (by decide)
  refine ⟨h.1.trans (by decide), ?_⟩
  obtain ⟨store1, hw, hl⟩ := h.2
  exact ⟨store1, hw, hl.trans (by decide)⟩

theorem readlinesFor_of_lookup (loc : Str) (store : Store) (t : Str)
    (c : Str) (h : lookupStore store (filenameFor loc t) = some c) :
    readlinesFor loc store t = (pyLines c).map pyStrip := by
  unfold readlinesFor
  rw [h]

theorem map_self_of_mem {α : Type} {f : α → α} :
    ∀ l : List α, (∀ a ∈ l, f a = a) → l.map f = l
  | [], _ => rfl
  | a :: as_, h => by
      rw [List.map_cons, h a (by simp),
        map_self_of_mem as_ (fun b hb => h b (by simp [hb]))]

theorem option_all_some {o : Option Char} {p : Char → Bool}
    (h : o.all p = true) : ∀ c, o = some c → p c = true := by
  intro c hc
  rw [hc] at h
  simpa using h

/-- C5: writing six-field rows whose fields contain no commas, no
newlines and no surrounding whitespace with `append=False`, then reading
the ticker back in row format, returns exactly the same rows. -/
theorem write_then_read_round_trip (loc : Str) (store : Store) (t : Str)
    (rows : List Row)
    (h6 : ∀ r ∈ rows, r.length = 6)
    (hfields : ∀ r ∈ rows, ∀ f ∈ r, ',' ∉ f ∧ '\n' ∉ f ∧
      (f.head?.all fun c => ! isPySpace c) = true ∧
      (f.getLast?.all fun c => ! isPySpace c) = true) :
    ∃ store1, writeStockData loc store t rows false = .ok store1 ∧
      readStockData loc store1 t (str "row") = .ok rows := by
  refine ⟨_, rfl, ?_⟩
  rw [readStockData_row]
  unfold writeDataToCsvFile
  rw [if_neg (by simp)]
  unfold readCsvRowsFor
  rw [readlinesFor_of_lookup loc _ t (serializeRows rows)
    (lookup_writeFileW _ _ _)]
  have hnl : ∀ r ∈ rows, ∀ f ∈ r, '\n' ∉ f := by
    intro r hr f hf
    exact (hfields r hr f hf).2.1
  rw [pyLines_serializeRows rows hnl]
  have hline : ∀ r ∈ rows, pyStrip (joinSep ',' r) = joinSep ',' r := by
    intro r hr
    apply pyStrip_eq_self
    · intro c hc
      rcases joinSep_head ',' r c hc with e | ⟨f, hf, hcf⟩
      · subst e; decide
      · have := option_all_some (hfields r hr f hf).2.2.1 c hcf
        simpa using this
    · intro c hc
      rcases joinSep_getLast ',' r c hc with e | ⟨f, hf, hcf⟩
      · subst e; decide
      · have := option_all_some (hfields r hr f hf).2.2.2 c hcf
        simpa using this
  have hrow : ∀ r ∈ rows,
      (splitChar ',' (pyStrip (joinSep ',' r))).map pyStrip = r := by
    intro r hr
    have hrne : r ≠ [] := by
      intro he
      have h2 := h6 r hr
      rw [he] at h2
      simp at h2
    rw [hline r hr]
    rw [splitChar_joinSep ',' r hrne (fun f hf => (hfields r hr f hf).1)]
    have hfe : ∀ f ∈ r, pyStrip f = f := by
      intro f hf
      apply pyStrip_eq_self
      · intro c hc
        have := option_all_some (hfields r hr f hf).2.2.1 c hc
        simpa using this
      · intro c hc
        have := option_all_some (hfields r hr f hf).2.2.2 c hc
        simpa using this
    exact map_self_of_mem r hfe
  rw [List.map_map, List.map_map]
  have hfin : ∀ r ∈ rows,
      (((fun l => (splitChar ',' l).map pyStrip) ∘ pyStrip) ∘ joinSep ',') r
        = r := by
    intro r hr
    exact hrow r hr
  rw [map_self_of_mem rows hfin]

/-- Witness for C5 with a two-row series. -/
theorem write_then_read_round_trip_witness :
    ∃ store1,
      writeStockData (str "data/") [] (str "aapl")
          [[str "2024-01-01", str "1", str "2", str "3", str "4", str "5"],
           [str "2024-01-02", str "6", str "7", str "8", str "9",
            str "10"]] false =
        .ok store1 ∧
      readStockData (str "data/") store1 (str "aapl") (str "row") =
        .ok [[str "2024-01-01", str "1", str "2", str "3", str "4",
          str "5"],
         [str "2024-01-02", str "6", str "7", str "8", str "9",
          str "10"]] :=
  write_then_read_round_trip (str "data/") [] (str "aapl")
    [[str "2024-01-01", str "1", str "2", str "3", str "4", str "5"],
     [str "2024-01-02", str "6", str "7", str "8", str "9", str "10"]]
    (by decide) (by decide)

/-- C2, counterexample to the claim over *every* incoming series: with a
non-empty existing series and an empty incoming series the containment
condition cannot hold, yet the write raises `IndexError` at
`data[-1][0]` instead of silently appending nothing. -/
theorem merge_append_empty_incoming_index_error :
    mergeAppend
        (readCsvRowsFor (str "data/")
          [(str "data/A.csv", str "2024-01-02,1,2,3,4,5\n")] (str "A"))
        [] =
      .error .indexError ∧
    writeStockData (str "data/")
        [(str "data/A.csv", str "2024-01-02,1,2,3,4,5\n")] (str "A") []
        true =
      .error .indexError := by decide

/-! Decimal-printing lemmas, used for injectivity of `formatDate`. -/

theorem digitVal_digitChar {k : Nat} (h : k < 10) :
    digitVal (digitChar k) = k := by
  interval_cases k <;> decide

theorem digitChar_isDigit {k : Nat} (h : k < 10) :
    (digitChar k).isDigit = true := by
  interval_cases k <;> decide

theorem natDigitsAux_append (fuel : Nat) :
    ∀ (n : Nat) (acc : List Char),
      natDigitsAux fuel n acc = natDigitsAux fuel n [] ++ acc := by
  induction fuel with
  | zero => intro n acc; rfl
  | succ fuel ih =>
      intro n acc
      by_cases h : n < 10
      · simp [natDigitsAux, h]
      · simp only [natDigitsAux, if_neg h]
        rw [ih (n / 10) (digitChar (n % 10) :: acc),
          ih (n / 10) [digitChar (n % 10)]]
        simp

theorem natDigitsAux_fuel (fuel : Nat) :
    ∀ (n : Nat) (acc : List Char), n < fuel →
      natDigitsAux fuel n acc = natDigitsAux (n + 1) n acc := by
  induction fuel using Nat.strong_induction_on with
  | _ fuel ih =>
      intro n acc hn
      match fuel, hn with
      | fuel + 1, hn =>
          by_cases h : n < 10
          · simp [natDigitsAux, h]
          · simp only [natDigitsAux, if_neg h]
            have h10 : n / 10 < n := Nat.div_lt_self (by omega) (by omega)
            rw [ih fuel (by omega) (n / 10) _ (by omega),
              ih n (by omega) (n / 10) _ (by omega)]

theorem natDigits_lt10 {n : Nat} (h : n < 10) :
    natDigits n = [digitChar n] := by
  simp [natDigits, natDigitsAux, h]

theorem natDigits_step {n : Nat} (h : 10 ≤ n) :
    natDigits n = natDigits (n / 10) ++ [digitChar (n % 10)] := by
  unfold natDigits
  rw [show natDigitsAux (n + 1) n [] =
      natDigitsAux n (n / 10) [digitChar (n % 10)] by
    simp [natDigitsAux, Nat.not_lt.mpr h]]
  have h10 : n / 10 < n := Nat.div_lt_self (by omega) (by omega)
  rw [natDigitsAux_fuel n (n / 10) _ h10]
  exact natDigitsAux_append (n / 10 + 1) (n / 10) [digitChar (n % 10)]

theorem digitsVal_append (s : List Char) (c : Char) :
    digitsVal (s ++ [c]) = digitsVal s * 10 + digitVal c := by
  simp [digitsVal, List.foldl_append]

theorem natDigits_val (n : Nat) : digitsVal (natDigits n) = n := by
  induction n using Nat.strong_induction_on with
  | _ n ih =>
      by_cases h : n < 10
      · rw [natDigits_lt10 h]
        simp [digitsVal, digitVal_digitChar h]
      · rw [natDigits_step (by omega), digitsVal_append,
          ih (n / 10) (Nat.div_lt_self (by omega) (by omega)),
          digitVal_digitChar (Nat.mod_lt n (by omega))]
        omega

theorem natDigits_digits (n : Nat) :
    ∀ c ∈ natDigits n, c.isDigit = true := by
  induction n using Nat.strong_induction_on with
  | _ n ih =>
      intro c hc
      by_cases h : n < 10
      · rw [natDigits_lt10 h] at hc
        simp at hc
        rw [hc]
        exact digitChar_isDigit h
      · rw [natDigits_step (by omega)] at hc
        rcases List.mem_append.mp hc with hc | hc
        · exact ih (n / 10) (Nat.div_lt_self (by omega) (by omega)) c hc
        · simp at hc
          rw [hc]
          exact digitChar_isDigit (Nat.mod_lt n (by omega))

theorem pad2_val (n : Nat) : digitsVal (pad2 n) = n := by
  unfold pad2
  split_ifs with h
  · show digitsVal (['0'] ++ [digitChar n]) = n
    rw [digitsVal_append, digitVal_digitChar h,
      show digitsVal ['0'] = 0 from rfl]
    omega
  · exact natDigits_val n

theorem pad2_digits (n : Nat) : ∀ c ∈ pad2 n, c.isDigit = true := by
  unfold pad2
  split_ifs with h
  · intro c hc
    simp at hc
    rcases hc with hc | hc <;> rw [hc]
    · decide
    · exact digitChar_isDigit h
  · exact natDigits_digits n

theorem formatDate_eq_joinSep (d : Date) :
    formatDate d = joinSep '-' [natDigits d.year, pad2 d.month, pad2 d.day] :=
  rfl

theorem no_dash_of_digits {s : List Char}
    (h : ∀ c ∈ s, c.isDigit = true) : '-' ∉ s := by
  intro hmem
  have := h '-' hmem
  simp [Char.isDigit] at this

theorem formatDate_inj {a b : Date} (h : formatDate a = formatDate b) :
    a = b := by
  rw [formatDate_eq_joinSep, formatDate_eq_joinSep] at h
  have ha := splitChar_joinSep '-'
    [natDigits a.year, pad2 a.month, pad2 a.day] (by simp)
    (by
      intro p hp
      simp at hp
      rcases hp with hp | hp | hp <;> rw [hp]
      · exact no_dash_of_digits (natDigits_digits a.year)
      · exact no_dash_of_digits (pad2_digits a.month)
      · exact no_dash_of_digits (pad2_digits a.day))
  have hb := splitChar_joinSep '-'
    [natDigits b.year, pad2 b.month, pad2 b.day] (by simp)
    (by
      intro p hp
      simp at hp
      rcases hp with hp | hp | hp <;> rw [hp]
      · exact no_dash_of_digits (natDigits_digits b.year)
      · exact no_dash_of_digits (pad2_digits b.month)
      · exact no_dash_of_digits (pad2_digits b.day))
  rw [h] at ha
  rw [ha] at hb
  injection hb with h1 hb2
  injection hb2 with h2 hb3
  injection hb3 with h3
  have hy : a.year = b.year := by
    rw [← natDigits_val a.year, ← natDigits_val b.year, h1]
  have hm : a.month = b.month := by
    rw [← pad2_val a.month, ← pad2_val b.month, h2]
  have hd : a.day = b.day := by
    rw [← pad2_val a.day, ← pad2_val b.day, h3]
  cases a
  cases b
  simp_all

/-! Calendar-order lemmas for the fill walk. -/

theorem dateLtB_iff (a b : Date) : dateLtB a b = true ↔
    (a.year < b.year ∨ (a.year = b.year ∧ (a.month < b.month ∨
      (a.month = b.month ∧ a.day < b.day)))) := by
  unfold dateLtB
  simp

theorem dateLtB_irrefl (a : Date) : dateLtB a a = false := by
  unfold dateLtB
  simp

theorem daysInMonth_le (y m : Nat) : daysInMonth y m ≤ 31 := by
  unfold daysInMonth
  split_ifs <;> omega

theorem daysInMonth_pos (y m : Nat) : 1 ≤ daysInMonth y m := by
  unfold daysInMonth
  split_ifs <;> omega

theorem date_trichotomy (a b : Date) :
    dateLtB a b = true ∨ a = b ∨ dateLtB b a = true := by
  obtain ⟨ay, am, ad⟩ := a
  obtain ⟨by_, bm, bd⟩ := b
  simp only [dateLtB_iff, Date.mk.injEq]
  omega

theorem packedDate_lt_of_dateLtB {a b : Date} (ha : ValidDate a)
    (hb : ValidDate b) (h : dateLtB a b = true) :
    packedDate a < packedDate b := by
  obtain ⟨ay, am, ad⟩ := a
  obtain ⟨by_, bm, bd⟩ := b
  obtain ⟨ha1, ha2, ha3, ha4, ha5, ha6⟩ := ha
  obtain ⟨hb1, hb2, hb3, hb4, hb5, hb6⟩ := hb
  rw [dateLtB_iff] at h
  unfold packedDate
  dsimp only at *
  have hda := daysInMonth_le ay am
  have hdb := daysInMonth_le by_ bm
  omega

theorem packedDate_lt_nextDay {d : Date} (h : ValidDate d) :
    packedDate d < packedDate (nextDay d) := by
  obtain ⟨dy, dm, dd⟩ := d
  obtain ⟨h1, h2, h3, h4, h5, h6⟩ := h
  unfold nextDay packedDate
  dsimp only at *
  have hb := daysInMonth_le dy dm
  split_ifs with hd hm <;> dsimp only <;> omega

theorem nextDay_valid {d e : Date} (hd : ValidDate d) (he : ValidDate e)
    (hlt : dateLtB d e = true) : ValidDate (nextDay d) := by
  obtain ⟨dy, dm, dd⟩ := d
  obtain ⟨ey, em, ed⟩ := e
  obtain ⟨hd1, hd2, hd3, hd4, hd5, hd6⟩ := hd
  obtain ⟨he1, he2, he3, he4, he5, he6⟩ := he
  rw [dateLtB_iff] at hlt
  unfold nextDay
  dsimp only at *
  split_ifs with h1 h2
  · simp only [ValidDate]
    omega
  · have hp := daysInMonth_pos dy (dm + 1)
    simp only [ValidDate]
    omega
  · have hdm : dm = 12 := by omega
    subst hdm
    have h31 : daysInMonth dy 12 = 31 := rfl
    have hp := daysInMonth_pos (dy + 1) 1
    simp only [ValidDate]
    rcases hlt with h | ⟨hy, h | ⟨hm, h⟩⟩
    · omega
    · omega
    · subst hy
      rw [← hm] at he6
      omega

theorem nextDay_le_of_lt {d e : Date} (hd : ValidDate d) (he : ValidDate e)
    (hlt : dateLtB d e = true) : dateLtB e (nextDay d) = false := by
  obtain ⟨dy, dm, dd⟩ := d
  obtain ⟨ey, em, ed⟩ := e
  obtain ⟨hd1, hd2, hd3, hd4, hd5, hd6⟩ := hd
  obtain ⟨he1, he2, he3, he4, he5, he6⟩ := he
  rw [dateLtB_iff] at hlt
  rw [Bool.eq_false_iff]
  intro hcon
  unfold nextDay at hcon
  dsimp only at *
  by_cases h1 : dd < daysInMonth dy dm
  · rw [if_pos h1] at hcon
    rw [dateLtB_iff] at hcon
    dsimp only at hcon
    rcases hlt with h | ⟨hy, h | ⟨hm, h⟩⟩ <;>
      rcases hcon with hc | ⟨hcy, hc | ⟨hcm, hc⟩⟩ <;> omega
  · rw [if_neg h1] at hcon
    by_cases h2 : dm < 12
    · rw [if_pos h2] at hcon
      rw [dateLtB_iff] at hcon
      dsimp only at hcon
      rcases hlt with h | ⟨hy, h | ⟨hm, h⟩⟩ <;>
        rcases hcon with hc | ⟨hcy, hc | ⟨hcm, hc⟩⟩ <;> try omega
      all_goals subst hy
      all_goals subst hm
      all_goals omega
    · rw [if_neg h2] at hcon
      rw [dateLtB_iff] at hcon
      dsimp only at hcon
      have hdm : dm = 12 := by omega
      subst hdm
      have h31 : daysInMonth dy 12 = 31 := rfl
      rcases hlt with h | ⟨hy, h | ⟨hm, h⟩⟩ <;>
        rcases hcon with hc | ⟨hcy, hc | ⟨hcm, hc⟩⟩ <;> try omega
      all_goals subst hy
      all_goals rw [← hm] at he6
      all_goals omega

theorem packedDate_le_of_not_lt {a b : Date} (ha : ValidDate a)
    (hb : ValidDate b) (h : dateLtB a b = false) :
    packedDate b ≤ packedDate a := by
  rcases date_trichotomy a b with hh | hh | hh
  · rw [hh] at h
    exact absurd h (by simp)
  · exact le_of_eq (by rw [hh])
  · exact (packedDate_lt_of_dateLtB hb ha hh).le

theorem mem_dateRange_iff (fuel : Nat) :
    ∀ (curr next D : Date), ValidDate curr → ValidDate next →
      packedDate next ≤ packedDate curr + fuel →
      (D ∈ dateRange fuel curr next ↔
        (ValidDate D ∧ dateLtB D curr = false ∧ dateLtB D next = true)) := by
  induction fuel with
  | zero =>
      intro curr next D hc hn hfuel
      simp only [dateRange, List.not_mem_nil, false_iff]
      rintro ⟨hD, hge, hlt⟩
      have p1 := packedDate_lt_of_dateLtB hD hn hlt
      have p2 := packedDate_le_of_not_lt hD hc hge
      omega
  | succ fuel ih =>
      intro curr next D hc hn hfuel
      by_cases hg : dateLtB curr next = true
      · simp only [dateRange, if_pos hg, List.mem_cons]
        have hnv : ValidDate (nextDay curr) := nextDay_valid hc hn hg
        have hstep : packedDate curr < packedDate (nextDay curr) :=
          packedDate_lt_nextDay hc
        have hihi := ih (nextDay curr) next D hnv hn (by omega)
        constructor
        · rintro (rfl | hmem)
          · exact ⟨hc, dateLtB_irrefl D, hg⟩
          · obtain ⟨hD, hge, hlt⟩ := hihi.mp hmem
            refine ⟨hD, ?_, hlt⟩
            rw [Bool.eq_false_iff]
            intro hDc
            have p1 := packedDate_lt_of_dateLtB hD hc hDc
            have p2 := packedDate_le_of_not_lt hD hnv hge
            omega
        · rintro ⟨hD, hge, hlt⟩
          rcases date_trichotomy D curr with h | h | h
          · rw [h] at hge
            exact absurd hge (by simp)
          · exact Or.inl h
          · have hle := nextDay_le_of_lt hc hD h
            exact Or.inr (hihi.mpr ⟨hD, hle, hlt⟩)
      · simp only [dateRange, if_neg hg, List.not_mem_nil, false_iff]
        rintro ⟨hD, hge, hlt⟩
        have p1 := packedDate_lt_of_dateLtB hD hn hlt
        have p2 := packedDate_le_of_not_lt hD hc hge
        have p3 : packedDate next ≤ packedDate curr := by
          rcases date_trichotomy curr next with h | h | h
          · exact absurd h hg
          · exact le_of_eq (by rw [h])
          · exact (packedDate_lt_of_dateLtB hn hc h).le
        omega

theorem dictInsert_fresh (d : PriceLut) (k : Str) (v : PyFloat)
    (h : k ∉ d.map Prod.fst) : dictInsert d k v = d ++ [(k, v)] := by
  unfold dictInsert
  rw [if_neg]
  simp only [List.any_eq_true, decide_eq_true_eq, not_exists]
  intro p hp
  exact h (List.mem_map.mpr ⟨p, hp.1, hp.2⟩)

theorem lutLookup_eq_some_of_mem (l : PriceLut) (k : Str) (v : PyFloat)
    (hnd : (l.map Prod.fst).Nodup) (hmem : (k, v) ∈ l) :
    lutLookup l k = some v := by
  induction l with
  | nil => simp at hmem
  | cons p rest ih =>
      obtain ⟨k2, v2⟩ := p
      simp only [List.map_cons, List.nodup_cons] at hnd
      rcases List.mem_cons.mp hmem with he | hmem2
      · have he1 : k = k2 := congrArg Prod.fst he
        have he2 : v = v2 := congrArg Prod.snd he
        rw [he1, he2]
        simp [lutLookup]
      · have hk : ¬ k2 = k := by
          intro he
          rw [he] at hnd
          exact hnd.1 (List.mem_map.mpr ⟨(k, v), hmem2, rfl⟩)
        simp only [lutLookup, if_neg hk]
        exact ih hnd.2 hmem2

theorem exceptBind_eq_ok {α β : Type} {x : Except PyErr α}
    {g : α → Except PyErr β} {b : β} (h : (x >>= g) = .ok b) :
    ∃ a, x = .ok a ∧ g a = .ok b := by
  cases x with
  | ok a => exact ⟨a, rfl, h⟩
  | error e =>
      rw [exceptBind_error] at h
      simp at h

theorem fillSteps_stop (fuel : Nat) (d : Date) (fields : List Str)
    (fill : Bool) (acc : PriceLut) :
    fillSteps fuel d d fields fill acc = .ok acc := by
  cases fuel with
  | zero => rfl
  | succ fuel => simp [fillSteps, dateLtB_irrefl]

theorem fillSteps_true_spec (fuel : Nat) :
    ∀ (curr next : Date) (fields : List Str) (cv : PyFloat)
      (acc : PriceLut),
      closeOfFields fields = .ok cv →
      (∀ k ∈ (dateRange fuel curr next).map formatDate,
        k ∉ acc.map Prod.fst) →
      ((dateRange fuel curr next).map formatDate).Nodup →
      fillSteps fuel curr next fields true acc =
        .ok (acc ++ (dateRange fuel curr next).map
          (fun D => (formatDate D, cv))) := by
  induction fuel with
  | zero =>
      intro curr next fields cv acc _ _ _
      simp [fillSteps, dateRange]
  | succ fuel ih =>
      intro curr next fields cv acc hclose hfresh hnd
      unfold closeOfFields at hclose
      obtain ⟨f, hf, hv⟩ := exceptBind_eq_ok hclose
      have hdr : dateRange (fuel + 1) curr next =
          if dateLtB curr next = true then
            curr :: dateRange fuel (nextDay curr) next
          else [] := rfl
      by_cases hg : dateLtB curr next = true
      · rw [hdr, if_pos hg] at hfresh hnd ⊢
        simp only [List.map_cons, List.nodup_cons] at hnd
        have hfc : formatDate curr ∉ acc.map Prod.fst :=
          hfresh (formatDate curr) (by simp)
        simp only [fillSteps, if_pos hg]
        rw [hf, exceptBind_ok, hv, exceptBind_ok,
          dictInsert_fresh acc (formatDate curr) cv hfc]
        simp only [if_true]
        rw [ih (nextDay curr) next fields cv (acc ++ [(formatDate curr, cv)])
          (by unfold closeOfFields; rw [hf, exceptBind_ok, hv])
          (by
            intro k hk
            simp only [List.map_append, List.mem_append]
            rintro (hka | hka)
            · exact hfresh k (by simp [hk]) hka
            · simp at hka
              rw [hka] at hk
              exact hnd.1 hk)
          hnd.2]
        simp
      · rw [hdr, if_neg hg]
        simp only [fillSteps, if_neg hg]
        simp

theorem fillSteps_false_spec (fuel : Nat) (curr next : Date)
    (fields : List Str) (cv : PyFloat) (acc : PriceLut)
    (hclose : closeOfFields fields = .ok cv) :
    fillSteps (fuel + 1) curr next fields false acc =
      .ok (if dateLtB curr next = true then
        dictInsert acc (formatDate curr) cv else acc) := by
  unfold closeOfFields at hclose
  obtain ⟨f, hf, hv⟩ := exceptBind_eq_ok hclose
  by_cases hg : dateLtB curr next = true
  · rw [if_pos hg]
    simp only [fillSteps, if_pos hg]
    rw [hf, exceptBind_ok, hv, exceptBind_ok]
    exact fillSteps_stop fuel next fields false _
  · rw [if_neg hg]
    simp only [fillSteps, if_neg hg]

theorem rangesFor_single (p : Date × PyFloat) :
    rangesFor [p] = [(formatDate p.1, p.2)] := by
  obtain ⟨d, c⟩ := p
  rfl

theorem rangesFor_cons (p q : Date × PyFloat) (rest : List (Date × PyFloat)) :
    rangesFor (p :: q :: rest) =
      (dateRange (packedDate q.1) p.1 q.1).map
        (fun D => (formatDate D, p.2)) ++ rangesFor (q :: rest) := by
  obtain ⟨d1, c1⟩ := p
  obtain ⟨d2, c2⟩ := q
  rfl

theorem packedDate_pos {d : Date} (h : ValidDate d) : 1 ≤ packedDate d := by
  obtain ⟨dy, dm, dd⟩ := d
  obtain ⟨h1, h2, h3, h4, h5, h6⟩ := h
  unfold packedDate
  dsimp only at *
  omega

theorem rangesFor_cons_keys (p q : Date × PyFloat)
    (rest : List (Date × PyFloat)) :
    (rangesFor (p :: q :: rest)).map Prod.fst =
      (dateRange (packedDate q.1) p.1 q.1).map formatDate ++
        (rangesFor (q :: rest)).map Prod.fst := by
  rw [rangesFor_cons]
  simp [List.map_map, Function.comp]

theorem dateOfLine_def (l : Str) :
    parseDate ((splitChar ',' l).headD []) = dateOfLine l := rfl

theorem pairLoop_true_spec :
    ∀ (lines : List Str) (ps : List (Date × PyFloat)) (acc : PriceLut),
      List.Forall₂ (fun l p => LineOK l p.1 p.2) lines ps →
      List.Chain' (fun p q => dateLtB p.1 q.1 = true) ps →
      lines ≠ [] →
      (∀ k ∈ (rangesFor ps).map Prod.fst, k ∉ acc.map Prod.fst) →
      ((rangesFor ps).map Prod.fst).Nodup →
      pairLoop true lines acc = .ok (acc ++ rangesFor ps) := by
  intro lines
  induction lines with
  | nil => intro ps acc _ _ hne _ _; exact absurd rfl hne
  | cons l1 rest ih =>
      intro ps acc hok hsort _ hfresh hnd
      rcases hok with _ | ⟨hp1, hok2⟩
      rename_i p1 ps1
      cases rest with
      | nil =>
          rcases hok2 with _ | _
          obtain ⟨hd1, hv1, hc1⟩ := hp1
          unfold closeOfFields at hc1
          obtain ⟨f, hf, hv⟩ := exceptBind_eq_ok hc1
          simp only [pairLoop]
          rw [dateOfLine_def, hd1, exceptBind_ok, hf, exceptBind_ok, hv,
            exceptBind_ok]
          rw [rangesFor_single] at hfresh ⊢
          rw [dictInsert_fresh acc (formatDate p1.1) p1.2
            (hfresh (formatDate p1.1) (by simp))]
      | cons l2 rest2 =>
          rcases hok2 with _ | ⟨hp2, hok3⟩
          rename_i p2 ps2
          obtain ⟨hd1, hv1, hc1⟩ := hp1
          obtain ⟨hd2, hv2, hc2⟩ := hp2
          rw [rangesFor_cons_keys] at hfresh hnd
          simp only [pairLoop]
          rw [dateOfLine_def, hd1, exceptBind_ok, dateOfLine_def, hd2,
            exceptBind_ok]
          rw [fillSteps_true_spec (packedDate p2.1) p1.1 p2.1
            (splitChar ',' l1) p1.2 acc hc1
            (fun k hk => hfresh k (List.mem_append.mpr (Or.inl hk)))
            (List.Nodup.of_append_left hnd), exceptBind_ok]
          rw [ih (p2 :: ps2)
            (acc ++ (dateRange (packedDate p2.1) p1.1 p2.1).map
              (fun D => (formatDate D, p1.2)))
            (List.Forall₂.cons ⟨hd2, hv2, hc2⟩ hok3) hsort.tail (by simp)
            (by
              intro k hk
              simp only [List.map_append, List.mem_append]
              rintro (hka | hka)
              · exact hfresh k (List.mem_append.mpr (Or.inr hk)) hka
              · have hdisj := List.disjoint_of_nodup_append hnd
                simp only [List.map_map] at hka
                have : k ∈ (dateRange (packedDate p2.1) p1.1 p2.1).map
                    formatDate := by
                  simpa [List.map_map, Function.comp] using hka
                exact hdisj this hk)
            (List.Nodup.of_append_right hnd)]
          rw [rangesFor_cons]
          simp [List.append_assoc]

theorem pairLoop_false_spec :
    ∀ (lines : List Str) (ps : List (Date × PyFloat)) (acc : PriceLut),
      List.Forall₂ (fun l p => LineOK l p.1 p.2) lines ps →
      List.Chain' (fun p q => dateLtB p.1 q.1 = true) ps →
      lines ≠ [] →
      (∀ k ∈ ps.map (fun p => formatDate p.1), k ∉ acc.map Prod.fst) →
      (ps.map (fun p => formatDate p.1)).Nodup →
      pairLoop false lines acc =
        .ok (acc ++ ps.map (fun p => (formatDate p.1, p.2))) := by
  intro lines
  induction lines with
  | nil => intro ps acc _ _ hne _ _; exact absurd rfl hne
  | cons l1 rest ih =>
      intro ps acc hok hsort _ hfresh hnd
      rcases hok with _ | ⟨hp1, hok2⟩
      rename_i p1 ps1
      cases rest with
      | nil =>
          rcases hok2 with _ | _
          obtain ⟨hd1, hv1, hc1⟩ := hp1
          unfold closeOfFields at hc1
          obtain ⟨f, hf, hv⟩ := exceptBind_eq_ok hc1
          simp only [pairLoop]
          rw [dateOfLine_def, hd1, exceptBind_ok, hf, exceptBind_ok, hv,
            exceptBind_ok]
          rw [dictInsert_fresh acc (formatDate p1.1) p1.2
            (hfresh (formatDate p1.1) (by simp))]
          simp
      | cons l2 rest2 =>
          rcases hok2 with _ | ⟨hp2, hok3⟩
          rename_i p2 ps2
          obtain ⟨hd1, hv1, hc1⟩ := hp1
          obtain ⟨hd2, hv2, hc2⟩ := hp2
          have hg : dateLtB p1.1 p2.1 = true := (List.chain'_cons.mp hsort).1
          have hpos : 1 ≤ packedDate p2.1 := packedDate_pos hv2
          simp only [pairLoop]
          rw [dateOfLine_def, hd1, exceptBind_ok, dateOfLine_def, hd2,
            exceptBind_ok]
          rw [show packedDate p2.1 = (packedDate p2.1 - 1) + 1 by omega,
            fillSteps_false_spec (packedDate p2.1 - 1) p1.1 p2.1
              (splitChar ',' l1) p1.2 acc hc1, if_pos hg, exceptBind_ok]
          rw [List.map_cons, List.nodup_cons] at hnd
          rw [dictInsert_fresh acc (formatDate p1.1) p1.2
            (hfresh (formatDate p1.1) (by simp))]
          rw [ih (p2 :: ps2) (acc ++ [(formatDate p1.1, p1.2)])
            (List.Forall₂.cons ⟨hd2, hv2, hc2⟩ hok3) hsort.tail (by simp)
            (by
              intro k hk
              simp only [List.map_append, List.mem_append]
              rintro (hka | hka)
              · exact hfresh k
                  (by rw [List.map_cons]; exact List.mem_cons_of_mem _ hk)
                  hka
              · simp at hka
                rw [hka] at hk
                exact hnd.1 hk)
            hnd.2]
          simp

theorem dateLtB_trans {a b c : Date} (h1 : dateLtB a b = true)
    (h2 : dateLtB b c = true) : dateLtB a c = true := by
  obtain ⟨ay, am, ad⟩ := a
  obtain ⟨by_, bm, bd⟩ := b
  obtain ⟨cy, cm, cd⟩ := c
  rw [dateLtB_iff] at h1 h2 ⊢
  dsimp only at *
  rcases h1 with h | ⟨e1, h | ⟨e2, h⟩⟩ <;>
    rcases h2 with g | ⟨f1, g | ⟨f2, g⟩⟩ <;> omega

theorem dateLtB_asymm {a b : Date} (h : dateLtB a b = true) :
    dateLtB b a = false := by
  rw [Bool.eq_false_iff]
  intro h2
  have := dateLtB_trans h h2
  rw [dateLtB_irrefl] at this
  exact absurd this (by simp)

theorem dateLtB_lt_of_lt_of_le {a b c : Date} (h1 : dateLtB a b = true)
    (h2 : dateLtB c b = false) : dateLtB a c = true := by
  rcases date_trichotomy b c with h | h | h
  · exact dateLtB_trans h1 h
  · rw [← h]
    exact h1
  · rw [h] at h2
    exact absurd h2 (by simp)

theorem date_eq_of_le_of_le {a b : Date} (h1 : dateLtB a b = false)
    (h2 : dateLtB b a = false) : a = b := by
  rcases date_trichotomy a b with h | h | h
  · rw [h] at h1
    exact absurd h1 (by simp)
  · exact h
  · rw [h] at h2
    exact absurd h2 (by simp)

theorem chain_head_le_all {l : List (Date × PyFloat)}
    {q : Date × PyFloat}
    (h : List.Chain' (fun p r => dateLtB p.1 r.1 = true) (q :: l)) :
    ∀ x ∈ q :: l, dateLtB x.1 q.1 = false := by
  have inst : IsTrans (Date × PyFloat)
      (fun p r => dateLtB p.1 r.1 = true) :=
    ⟨fun a b c hab hbc => dateLtB_trans hab hbc⟩
  have hpw := (@List.chain'_iff_pairwise _ _ inst (q :: l)).mp h
  intro x hx
  rcases List.mem_cons.mp hx with rfl | hx2
  · exact dateLtB_irrefl x.1
  · exact dateLtB_asymm ((List.pairwise_cons.mp hpw).1 x hx2)

theorem getLast?_cons_of_ne_nil {α : Type} {l : List α} (a : α)
    (h : l ≠ []) : (a :: l).getLast? = l.getLast? := by
  cases l with
  | nil => exact absurd rfl h
  | cons b bs => exact List.getLast?_cons_cons

theorem chain_head_le_last {l : List (Date × PyFloat)}
    {q pl : Date × PyFloat}
    (h : List.Chain' (fun p r => dateLtB p.1 r.1 = true) (q :: l))
    (hl : (q :: l).getLast? = some pl) : dateLtB pl.1 q.1 = false :=
  chain_head_le_all h pl (List.mem_of_mem_getLast? (by rw [hl]; rfl))

theorem dateRange_nodup (fuel : Nat) :
    ∀ (curr next : Date), ValidDate curr → ValidDate next →
      packedDate next ≤ packedDate curr + fuel →
      (dateRange fuel curr next).Nodup := by
  induction fuel with
  | zero => intro curr next _ _ _; simp [dateRange]
  | succ fuel ih =>
      intro curr next hc hn hfuel
      by_cases hg : dateLtB curr next = true
      · have hnv : ValidDate (nextDay curr) := nextDay_valid hc hn hg
        have hstep : packedDate curr < packedDate (nextDay curr) :=
          packedDate_lt_nextDay hc
        simp only [dateRange, if_pos hg, List.nodup_cons]
        constructor
        · intro hmem
          obtain ⟨_, hge, _⟩ := (mem_dateRange_iff fuel (nextDay curr) next
            curr hnv hn (by omega)).mp hmem
          have := packedDate_le_of_not_lt hc hnv hge
          omega
        · exact ih (nextDay curr) next hnv hn (by omega)
      · simp [dateRange, if_neg hg]

theorem rangesFor_key_bounds :
    ∀ (ps : List (Date × PyFloat)) (p0 pl : Date × PyFloat),
      List.Chain' (fun p q => dateLtB p.1 q.1 = true) (p0 :: ps) →
      (∀ p ∈ p0 :: ps, ValidDate p.1) →
      (p0 :: ps).getLast? = some pl →
      ∀ pr ∈ rangesFor (p0 :: ps), ∃ D, ValidDate D ∧
        pr.1 = formatDate D ∧ dateLtB D p0.1 = false ∧
        dateLtB pl.1 D = false := by
  intro ps
  induction ps with
  | nil =>
      intro p0 pl _ hvalid hlast pr hpr
      rw [rangesFor_single] at hpr
      simp only [List.mem_singleton] at hpr
      have : pl = p0 := by
        simp at hlast
        exact hlast.symm
      subst this
      exact ⟨pl.1, hvalid pl (by simp), by rw [hpr],
        dateLtB_irrefl pl.1, dateLtB_irrefl pl.1⟩
  | cons p1 rest ih =>
      intro p0 pl hsort hvalid hlast pr hpr
      have h01 : dateLtB p0.1 p1.1 = true := (List.chain'_cons.mp hsort).1
      have hv0 : ValidDate p0.1 := hvalid p0 (by simp)
      have hv1 : ValidDate p1.1 := hvalid p1 (by simp)
      have hlast2 : (p1 :: rest).getLast? = some pl := by
        rw [← getLast?_cons_of_ne_nil p0 (by simp)]
        exact hlast
      rw [rangesFor_cons] at hpr
      rcases List.mem_append.mp hpr with hpr | hpr
      · obtain ⟨E, hE, hEeq⟩ := List.mem_map.mp hpr
        obtain ⟨hEv, hge, hlt⟩ := (mem_dateRange_iff (packedDate p1.1)
          p0.1 p1.1 E hv0 hv1 (by omega)).mp hE
        refine ⟨E, hEv, by rw [← hEeq], hge, ?_⟩
        have hp1pl : dateLtB pl.1 p1.1 = false :=
          chain_head_le_last (List.Chain'.tail hsort) hlast2
        exact dateLtB_asymm (dateLtB_lt_of_lt_of_le hlt hp1pl)
      · obtain ⟨D, hDv, hDeq, hge, hle⟩ := ih p1 pl
          (List.Chain'.tail hsort) (fun p hp => hvalid p (by simp [hp]))
          hlast2 pr hpr
        refine ⟨D, hDv, hDeq, ?_, hle⟩
        exact dateLtB_asymm (dateLtB_lt_of_lt_of_le h01 hge)

theorem lastCloseLE_head_only (D : Date) (p : Date × PyFloat)
    (t : List (Date × PyFloat)) (hp : dateLtB D p.1 = false)
    (ht : ∀ q ∈ t, dateLtB D q.1 = true) :
    lastCloseLE D (p :: t) = some p.2 := by
  unfold lastCloseLE
  have htf : t.filter (fun q => dateLtB D q.1 = false) = [] := by
    rw [List.filter_eq_nil_iff]
    intro q hq
    simp [ht q hq]
  rw [List.filter_cons_of_pos (by simp [hp]), htf]
  simp

theorem lastCloseLE_skip_head (D : Date) (p : Date × PyFloat)
    (t : List (Date × PyFloat)) (hq : ∃ q ∈ t, dateLtB D q.1 = false) :
    lastCloseLE D (p :: t) = lastCloseLE D t := by
  unfold lastCloseLE
  obtain ⟨q, hq1, hq2⟩ := hq
  have hne : t.filter (fun r => dateLtB D r.1 = false) ≠ [] := by
    intro h
    have hmem : q ∈ t.filter (fun r => dateLtB D r.1 = false) :=
      List.mem_filter.mpr ⟨hq1, by simp [hq2]⟩
    rw [h] at hmem
    simp at hmem
  rw [List.filter_cons]
  split_ifs with h
  · rw [getLast?_cons_of_ne_nil _ hne]
  · rfl

theorem mem_block_iff (D : Date) (v : PyFloat) (hDv : ValidDate D)
    (c : PyFloat) (d1 d2 : Date) (h1 : ValidDate d1) (h2 : ValidDate d2) :
    ((formatDate D, v) ∈ (dateRange (packedDate d2) d1 d2).map
        (fun E => (formatDate E, c)) ↔
      (dateLtB D d1 = false ∧ dateLtB D d2 = true ∧ v = c)) := by
  constructor
  · intro h
    obtain ⟨E, hE, hEeq⟩ := List.mem_map.mp h
    obtain ⟨hEv, hge, hlt⟩ :=
      (mem_dateRange_iff _ d1 d2 E h1 h2 (by omega)).mp hE
    have hED : E = D := formatDate_inj (congrArg Prod.fst hEeq)
    subst hED
    exact ⟨hge, hlt, (congrArg Prod.snd hEeq).symm⟩
  · rintro ⟨hge, hlt, rfl⟩
    exact List.mem_map.mpr
      ⟨D, (mem_dateRange_iff _ d1 d2 D h1 h2 (by omega)).mpr
        ⟨hDv, hge, hlt⟩, rfl⟩

theorem mem_rangesFor_iff (ps : List (Date × PyFloat)) :
    ∀ (p0 pl : Date × PyFloat),
      List.Chain' (fun p q => dateLtB p.1 q.1 = true) (p0 :: ps) →
      (∀ p ∈ p0 :: ps, ValidDate p.1) →
      (p0 :: ps).getLast? = some pl →
      ∀ (D : Date) (v : PyFloat), ValidDate D →
        ((formatDate D, v) ∈ rangesFor (p0 :: ps) ↔
          (dateLtB D p0.1 = false ∧ dateLtB pl.1 D = false ∧
            lastCloseLE D (p0 :: ps) = some v)) := by
  induction ps with
  | nil =>
      intro p0 pl hsort hvalid hlast D v hDv
      have hpl : pl = p0 := by
        simp at hlast
        exact hlast.symm
      subst hpl
      rw [rangesFor_single]
      simp only [List.mem_singleton, Prod.mk.injEq]
      constructor
      · rintro ⟨hf, hv⟩
        have hD : D = pl.1 := formatDate_inj hf
        subst hD
        refine ⟨dateLtB_irrefl _, dateLtB_irrefl _, ?_⟩
        rw [lastCloseLE_head_only _ pl [] (dateLtB_irrefl _) (by simp)]
        rw [hv]
      · rintro ⟨h1, h2, h3⟩
        have hD : D = pl.1 := date_eq_of_le_of_le h1 h2
        subst hD
        rw [lastCloseLE_head_only _ pl [] (dateLtB_irrefl _) (by simp)]
          at h3
        injection h3 with h3
        exact ⟨rfl, h3.symm⟩
  | cons p1 rest ih =>
      intro p0 pl hsort hvalid hlast D v hDv
      have h01 : dateLtB p0.1 p1.1 = true := (List.chain'_cons.mp hsort).1
      have hv0 : ValidDate p0.1 := hvalid p0 (by simp)
      have hv1 : ValidDate p1.1 := hvalid p1 (by simp)
      have hsort1 := List.Chain'.tail hsort
      have hlast2 : (p1 :: rest).getLast? = some pl := by
        rw [← getLast?_cons_of_ne_nil p0 (by simp)]
        exact hlast
      have hp1pl : dateLtB pl.1 p1.1 = false :=
        chain_head_le_last hsort1 hlast2
      have htail_ge : ∀ q ∈ p1 :: rest, dateLtB q.1 p1.1 = false :=
        chain_head_le_all hsort1
      rw [rangesFor_cons, List.mem_append,
        mem_block_iff D v hDv p0.2 p0.1 p1.1 hv0 hv1,
        ih p1 pl hsort1 (fun p hp => hvalid p (by simp [hp])) hlast2 D v hDv]
      by_cases hD2 : dateLtB D p1.1 = true
      · have htail_lt : ∀ q ∈ p1 :: rest, dateLtB D q.1 = true := fun q hq =>
          dateLtB_lt_of_lt_of_le hD2 (htail_ge q hq)
        constructor
        · rintro (⟨hge, _, rfl⟩ | ⟨hge1, _, _⟩)
          · refine ⟨hge, ?_, ?_⟩
            · exact dateLtB_asymm (dateLtB_lt_of_lt_of_le hD2 hp1pl)
            · exact lastCloseLE_head_only D p0 (p1 :: rest) hge htail_lt
          · exact absurd hD2 (by simp [hge1])
        · rintro ⟨hge, hle, hlc⟩
          left
          have hco := lastCloseLE_head_only D p0 (p1 :: rest) hge htail_lt
          rw [hco] at hlc
          injection hlc with hlc
          exact ⟨hge, hD2, hlc.symm⟩
      · have hD2f : dateLtB D p1.1 = false := Bool.eq_false_iff.mpr hD2
        have hge0 : dateLtB D p0.1 = false :=
          dateLtB_asymm (dateLtB_lt_of_lt_of_le h01 hD2f)
        have hskip : lastCloseLE D (p0 :: p1 :: rest) =
            lastCloseLE D (p1 :: rest) :=
          lastCloseLE_skip_head D p0 (p1 :: rest) ⟨p1, by simp, hD2f⟩
        constructor
        · rintro (⟨_, hlt, _⟩ | ⟨_, hle, hlc⟩)
          · exact absurd hlt (by simp [hD2f])
          · exact ⟨hge0, hle, by rw [hskip]; exact hlc⟩
        · rintro ⟨_, hle, hlc⟩
          right
          rw [hskip] at hlc
          exact ⟨hD2f, hle, hlc⟩

theorem formatDate_injective : Function.Injective formatDate :=
  fun _ _ h => formatDate_inj h

theorem rangesFor_keys_nodup :
    ∀ (ps : List (Date × PyFloat)) (p0 pl : Date × PyFloat),
      List.Chain' (fun p q => dateLtB p.1 q.1 = true) (p0 :: ps) →
      (∀ p ∈ p0 :: ps, ValidDate p.1) →
      (p0 :: ps).getLast? = some pl →
      ((rangesFor (p0 :: ps)).map Prod.fst).Nodup := by
  intro ps
  induction ps with
  | nil =>
      intro p0 pl _ _ _
      rw [rangesFor_single]
      simp
  | cons p1 rest ih =>
      intro p0 pl hsort hvalid hlast
      have h01 : dateLtB p0.1 p1.1 = true := (List.chain'_cons.mp hsort).1
      have hv0 : ValidDate p0.1 := hvalid p0 (by simp)
      have hv1 : ValidDate p1.1 := hvalid p1 (by simp)
      have hsort1 := List.Chain'.tail hsort
      have hlast2 : (p1 :: rest).getLast? = some pl := by
        rw [← getLast?_cons_of_ne_nil p0 (by simp)]
        exact hlast
      rw [rangesFor_cons_keys, List.nodup_append]
      refine ⟨List.Nodup.map formatDate_injective
        (dateRange_nodup _ p0.1 p1.1 hv0 hv1 (by omega)),
        ih p1 pl hsort1 (fun p hp => hvalid p (by simp [hp])) hlast2, ?_⟩
      intro k hk1 hk2
      obtain ⟨E, hE, hEk⟩ := List.mem_map.mp hk1
      obtain ⟨hEv, hEge, hElt⟩ :=
        (mem_dateRange_iff _ p0.1 p1.1 E hv0 hv1 (by omega)).mp hE
      obtain ⟨pr, hpr, hprk⟩ := List.mem_map.mp hk2
      obtain ⟨D, hDv, hDk, hDge, hDle⟩ := rangesFor_key_bounds rest p1 pl
        hsort1 (fun p hp => hvalid p (by simp [hp])) hlast2 pr hpr
      have hED : E = D := formatDate_inj (by rw [hEk, ← hprk]; exact hDk)
      subst hED
      rw [hElt] at hDge
      exact absurd hDge (by simp)

theorem forall₂_valid {lines : List Str} {ps : List (Date × PyFloat)}
    (h : List.Forall₂ (fun l p => LineOK l p.1 p.2) lines ps) :
    ∀ p ∈ ps, ValidDate p.1 := by
  induction h with
  | nil => simp
  | cons h1 _ ih =>
      intro p hp
      rcases List.mem_cons.mp hp with rfl | hp2
      · exact h1.2.1
      · exact ih p hp2

theorem ps_formats_nodup (ps : List (Date × PyFloat))
    (hsort : List.Chain' (fun p q => dateLtB p.1 q.1 = true) ps) :
    (ps.map (fun p => formatDate p.1)).Nodup := by
  have inst : IsTrans (Date × PyFloat)
      (fun p r => dateLtB p.1 r.1 = true) :=
    ⟨fun a b c hab hbc => dateLtB_trans hab hbc⟩
  have hpw := (@List.chain'_iff_pairwise _ _ inst ps).mp hsort
  unfold List.Nodup
  rw [List.pairwise_map]
  refine hpw.imp ?_
  intro a b hab he
  have := formatDate_inj he
  rw [this] at hab
  rw [dateLtB_irrefl] at hab
  exact absurd hab (by simp)

/-- C4: for a stored multi-row series whose lines parse to strictly
ascending valid dates and close values, `build_price_lut` with
`fill=True` produces a table whose keys are exactly the formatted
calendar dates between the first and last row dates, each mapped to the
close of the most recent row on or before it; with `fill=False` it
produces exactly one entry per stored row, the row's date mapped to the
row's own close. -/
theorem build_price_lut_fill_semantics
    (lines : List Str) (ps : List (Date × PyFloat))
    (d0 dl : Date × PyFloat)
    (hlen : 2 ≤ lines.length)
    (hok : List.Forall₂ (fun l p => LineOK l p.1 p.2) lines ps)
    (hsort : List.Chain' (fun p q => dateLtB p.1 q.1 = true) ps)
    (hhead : ps.head? = some d0) (hlast : ps.getLast? = some dl) :
    (∃ lut, buildPriceLut lines true = .ok lut ∧
      (∀ D, ValidDate D → dateLe d0.1 D → dateLe D dl.1 →
        ∃ v, lastCloseLE D ps = some v ∧
          lutLookup lut (formatDate D) = some v) ∧
      (∀ k v, (k, v) ∈ lut → ∃ D, ValidDate D ∧ k = formatDate D ∧
        dateLe d0.1 D ∧ dateLe D dl.1)) ∧
    buildPriceLut lines false =
      .ok (ps.map (fun p => (formatDate p.1, p.2))) := by
  cases lines with
  | nil => simp at hlen
  | cons l0 ltail =>
      cases ltail with
      | nil => simp at hlen
      | cons l1 lrest =>
          rcases hok with _ | ⟨hp0, hok1⟩
          rename_i q0 ps1
          rcases hok1 with _ | ⟨hp1, hok2⟩
          rename_i q1 ps2
          have hq0 : q0 = d0 := by
            simp at hhead
            exact hhead
          subst hq0
          have hval : ∀ p ∈ q0 :: q1 :: ps2, ValidDate p.1 :=
            forall₂_valid
              (List.Forall₂.cons hp0 (List.Forall₂.cons hp1 hok2))
          have hfa : List.Forall₂ (fun l p => LineOK l p.1 p.2)
              (l0 :: l1 :: lrest) (q0 :: q1 :: ps2) :=
            List.Forall₂.cons hp0 (List.Forall₂.cons hp1 hok2)
          constructor
          · have hnd := rangesFor_keys_nodup (q1 :: ps2) q0 dl hsort hval
              hlast
            have hrun := pairLoop_true_spec (l0 :: l1 :: lrest)
              (q0 :: q1 :: ps2) [] hfa hsort (by simp)
              (fun k _ => List.not_mem_nil k) hnd
            refine ⟨rangesFor (q0 :: q1 :: ps2), ?_, ?_, ?_⟩
            · show pairLoop true (l0 :: l1 :: lrest) [] = _
              rw [hrun]
              simp
            · intro D hDv hge hle
              have hfil : ∃ v,
                  lastCloseLE D (q0 :: q1 :: ps2) = some v := by
                unfold lastCloseLE
                have hq0mem : q0 ∈ (q0 :: q1 :: ps2).filter
                    (fun p => dateLtB D p.1 = false) :=
                  List.mem_filter.mpr ⟨by simp, by
                    have : dateLtB D q0.1 = false := hge
                    simp [this]⟩
                cases hf : (q0 :: q1 :: ps2).filter
                    (fun p => dateLtB D p.1 = false) with
                | nil =>
                    rw [hf] at hq0mem
                    simp at hq0mem
                | cons x xs =>
                    cases h2 : (x :: xs).getLast? with
                    | none =>
                        exact absurd (List.getLast?_eq_none_iff.mp h2)
                          (by simp)
                    | some pr =>
                        exact ⟨pr.2, rfl⟩
              obtain ⟨v, hv⟩ := hfil
              refine ⟨v, hv, ?_⟩
              apply lutLookup_eq_some_of_mem _ _ _ hnd
              exact (mem_rangesFor_iff (q1 :: ps2) q0 dl hsort hval hlast
                D v hDv).mpr ⟨hge, hle, hv⟩
            · intro k v hkv
              exact rangesFor_key_bounds (q1 :: ps2) q0 dl hsort hval
                hlast (k, v) hkv
          · have hndf := ps_formats_nodup (q0 :: q1 :: ps2) hsort
            show pairLoop false (l0 :: l1 :: lrest) [] = _
            rw [pairLoop_false_spec (l0 :: l1 :: lrest) (q0 :: q1 :: ps2)
              [] hfa hsort (by simp)
              (fun k _ => List.not_mem_nil k) hndf]
            simp

/-- Witness for C4, the spec's example: rows 2024-01-05 (close 10) and
2024-01-08 (close 20) give four fill entries carrying 10 across the gap
days, and exactly the two stored entries without fill. -/
theorem build_price_lut_fill_semantics_witness :
    buildPriceLut
        [str "2024-01-05,1,1,1,10,100", str "2024-01-08,1,1,1,20,100"]
        true =
      .ok [(str "2024-01-05", ⟨10, 0⟩), (str "2024-01-06", ⟨10, 0⟩),
        (str "2024-01-07", ⟨10, 0⟩), (str "2024-01-08", ⟨20, 0⟩)] ∧
    buildPriceLut
        [str "2024-01-05,1,1,1,10,100", str "2024-01-08,1,1,1,20,100"]
        false =
      .ok [(str "2024-01-05", ⟨10, 0⟩), (str "2024-01-08", ⟨20, 0⟩)] ∧
    ∃ lut v,
      buildPriceLut
          [str "2024-01-05,1,1,1,10,100", str "2024-01-08,1,1,1,20,100"]
          true =
        .ok lut ∧
      lastCloseLE ⟨2024, 1, 6⟩
          [(⟨2024, 1, 5⟩, ⟨10, 0⟩), (⟨2024, 1, 8⟩, ⟨20, 0⟩)] = some v ∧
      lutLookup lut (str "2024-01-06") = some v := by
  have h := build_price_lut_fill_semantics
    [str "2024-01-05,1,1,1,10,100", str "2024-01-08,1,1,1,20,100"]
    [(⟨2024, 1, 5⟩, ⟨10, 0⟩), (⟨2024, 1, 8⟩, ⟨20, 0⟩)]
    (⟨2024, 1, 5⟩, ⟨10, 0⟩) (⟨2024, 1, 8⟩, ⟨20, 0⟩)
    (by decide)
    (List.Forall₂.cons (by decide)
      (List.Forall₂.cons (by decide) List.Forall₂.nil))
    (by
      simp only [List.chain'_cons, List.chain'_singleton, and_true]
      decide)
    rfl rfl
  obtain ⟨⟨lut, hlut, hcov, _⟩, _⟩ := h
  refine ⟨by decide, by decide, lut, ?_⟩
  have h6 := hcov ⟨2024, 1, 6⟩ (by decide) (by decide) (by decide)
  obtain ⟨v, hv1, hv2⟩ := h6
  have hfmt : formatDate (⟨2024, 1, 6⟩ : Date) = str "2024-01-06" := by
    decide
  rw [hfmt] at hv2
  exact ⟨v, hlut, hv1, hv2⟩
